import Mathlib

/-!
Verification of the analytical-solver handler suite against its specification.

The development shallowly embeds the repository's Python handler modules
(`simplify.py`, `check_equal.py`, `solve_simple.py`, `solve_ode.py`,
`evaluate_integrals_macro.py`).  The external symbolic-computation engine
(sympy, together with the `sympy_tools` conversion helpers `from_latex`,
`to_latex`, `_latex_to_sympy_str`, which live outside the handler sources)
is abstracted as an `Engine` record of possibly-failing primitives, exactly
the interface the handlers call.  Python exceptions are modelled with
`Except String`; a `try/except` block becomes a `match` on the embedded
body's result.  CPython's `set` iteration order is hash-dependent; the model
keeps first-insertion order, which is immaterial to the statements proved
about it (they concern the deduplication key, not the iteration order).

The data-model records (`Variable`, `Context`, `MetaFunctionResult`,
`CellFunctionResult`, dropdown plumbing) come from the `alpha_solve` host
package, which is not part of the handler sources; they are modelled from
the specification's data-model section.
-/

/-- Fail-fast effectful map over a list, mirroring a Python `for` loop whose
body may raise: the first raised exception aborts the remaining iterations. -/
def mapME {α β : Type} (f : α → Except String β) : List α → Except String (List β)
  | [] => .ok []
  | x :: xs =>
    match f x with
    | .error e => .error e
    | .ok y =>
      match mapME f xs with
      | .error e => .error e
      | .ok ys => .ok (y :: ys)

/-- `itertools.product(*lists)`: Cartesian product of the value lists, the
rightmost list varying fastest. -/
def product {α : Type} : List (List α) → List (List α)
  | [] => [[]]
  | l :: ls => l.flatMap (fun x => (product ls).map (fun t => x :: t))

/-- The key-insertion walk of `dict.fromkeys`: emit each element whose key
has not been seen before, tracking the seen keys. -/
def dedupSeen (seen : List String) : List String → List String
  | [] => []
  | x :: xs => if seen.contains x then dedupSeen seen xs else x :: dedupSeen (seen ++ [x]) xs

/-- `list(dict.fromkeys(xs))`: remove duplicates keeping the first occurrence
of each string, in first-seen order. -/
def dedupFirstSeen (l : List String) : List String := dedupSeen [] l

/-- Adding the elements of `xs` to the Python set `acc` one by one: an element
is skipped when some already-present element compares equal (`eeq`) to it. -/
def setAddAll {E : Type} (eeq : E → E → Bool) : List E → List E → List E
  | acc, [] => acc
  | acc, x :: xs => setAddAll eeq (if acc.any (fun y => eeq y x) then acc else acc ++ [x]) xs

/-- Lexicographic comparison of character sequences, the order Python uses to
compare strings (by code point). -/
def lexLe : List Char → List Char → Bool
  | [], _ => true
  | _ :: _, [] => false
  | a :: as, b :: bs => if a < b then true else if b < a then false else lexLe as bs

/-- Insert `x` into the sorted list, after every element that compares
`le`-before-or-equal to it (the placement a stable sort produces). -/
def insertLe {α : Type} (le : α → α → Bool) (x : α) : List α → List α
  | [] => [x]
  | y :: ys => if le y x then y :: insertLe le x ys else x :: y :: ys

/-- Stable insertion sort, modelling Python's `sorted`. -/
def sortLe {α : Type} (le : α → α → Bool) (l : List α) : List α :=
  l.foldl (fun acc x => insertLe le x acc) []

/-- Python's string sort key ordering applied to `String`s. -/
def strLe (a b : String) : Bool := lexLe a.data b.data

/-- `sorted(strings)` in Python. -/
def sortedStr (l : List String) : List String := sortLe strLe l

/-- Python `\s` whitespace characters. -/
def isPyWs (c : Char) : Bool :=
  c = ' ' ∨ c = '\t' ∨ c = '\n' ∨ c = '\r' ∨ c = '\x0b' ∨ c = '\x0c'

/-- Python `str.strip()` on a character sequence. -/
def trimWs (l : List Char) : List Char :=
  ((l.dropWhile isPyWs).reverse.dropWhile isPyWs).reverse

/-- Python `str.strip()`. -/
def pyStrip (s : String) : String := ⟨trimWs s.data⟩

/-- Python slice `s[a:b]` (with `0 ≤ a ≤ b` clamping). -/
def pySlice {α : Type} (s : List α) (a b : Nat) : List α :=
  (s.drop a).take (b - a)

/-- Fuelled worker for literal-pattern replacement; with fuel at least the
text length the fuel never runs out (every step consumes a character). -/
def replaceSubAux (pat rep : List Char) : Nat → List Char → List Char
  | _, [] => []
  | 0, l => l
  | fuel + 1, c :: cs =>
    if pat ≠ [] ∧ pat.isPrefixOf (c :: cs) then
      rep ++ replaceSubAux pat rep fuel ((c :: cs).drop pat.length)
    else
      c :: replaceSubAux pat rep fuel cs

/-- `re.sub`/`str.replace` with a literal pattern: replace every (leftmost,
non-overlapping) occurrence of `pat` by `rep`. -/
def replaceSub (pat rep : List Char) (l : List Char) : List Char :=
  replaceSubAux pat rep l.length l

/-- Kind of a context variable (specification §3). -/
inductive VarKind where
  | numeric
  | analytical
deriving Repr, DecidableEq

/-- Modelled from the spec: `ContextVariable` of the `alpha_solve` data model —
a name together with an ordered list of candidate value expressions (kept in
their rendered string form, as the handlers store them). -/
structure Variable where
  name : String
  values : List String
  kind : VarKind
deriving Repr, DecidableEq

/-- `Variable.create_analytical(name, values)` as the handlers call it. -/
def Variable.create_analytical (name : String) (values : List String) : Variable :=
  ⟨name, values, VarKind.analytical⟩

/-- Modelled from the spec: the `Context`, a collection of variables threaded
between cell evaluations. -/
structure Context where
  vars : List Variable
deriving Repr, DecidableEq

/-- Modelled from the spec: a UI dropdown directive (title plus options). -/
structure Dropdown where
  title : String
  items : List String
deriving Repr, DecidableEq

/-- Modelled from the spec: a probe result — priority index, handler name,
applicability flag and optional UI directives. -/
structure MetaFunctionResult where
  index : Nat
  name : String
  use_result : Bool
  dropdowns : List Dropdown
deriving Repr, DecidableEq

/-- Modelled from the spec: an execution result — visible output lines plus
the replacement context. -/
structure CellFunctionResult where
  visible_solutions : List String
  new_context : Context
deriving Repr, DecidableEq

/-- Modelled from the spec: the handler input — the cell's LaTeX, the current
context, and the host-supplied dropdown selections keyed by directive title. -/
structure CellFunctionInput where
  latex : String
  context : Context
  dropdownSelections : List (String × String)
deriving Repr, DecidableEq

/-- Modelled from the spec: `input_data.get_dropdown_selection(title)` — the
host passes back, per directive title, the option the user picked. -/
def CellFunctionInput.get_dropdown_selection (i : CellFunctionInput) (title : String) :
    Option String :=
  (i.dropdownSelections.find? (fun p => p.fst == title)).map (fun p => p.snd)

/-- Python truthiness of an optional string (`if not selected_var_name`). -/
def truthy : Option String → Bool
  | none => false
  | some s => !(s == "")

/-- Modelled from the spec: proc-macro input (markup plus context). -/
structure ProcMacroInput where
  latex : String
  context : Context
deriving Repr, DecidableEq

/-- Modelled from the spec: proc-macro output — the rewritten markup. -/
structure ProcMacroResult where
  modified_latex : String
deriving Repr, DecidableEq

/-- The external symbolic-computation engine (sympy plus the `sympy_tools`
conversion helpers), abstracted as the exact primitives the handlers invoke.
Failing primitives return `Except String`, modelling raised exceptions. -/
structure Engine (E : Type) where
  fromLatex : String → Except String E
  isEquality : E → Bool
  hasLhsRhs : E → Bool
  lhs : E → E
  rhs : E → E
  freeSymbols : E → List String
  sympify : String → Except String E
  subs : E → List (String × E) → Except String E
  simplifyE : E → Except String E
  diffIsZero : E → E → Except String Bool
  solveE : E → String → Except String (List E)
  mkEq : String → E → E
  toLatex : E → Except String String
  reprStr : E → String
  eeq : E → E → Bool
  atomsDerivative : E → List E
  buildFunctionalEquation : E → Except String (E × E)
  dsolveE : E → E → Except String (List E)
  latexToSympyStr : String → Except String String
  integrateDef : E → String → E → E → Except String E
  numApprox : E → E

/-- The context variables `simplify.py`/`check_equal.py` treat as
substitutable: those whose symbol occurs free in the expression and whose
value list is non-empty (`if var_symbol in expr.free_symbols and
context_var.values`). -/
def substitutableVars {E : Type} (eng : Engine E) (ctx : Context) (e : E) : List Variable :=
  ctx.vars.filter (fun cv => (eng.freeSymbols e).contains cv.name ∧ cv.values ≠ [])

/-- One iteration of `simple_simplify`'s combination loop: build the
substitution dict, substitute, simplify, render. -/
def perComboSimplify {E : Type} (eng : Engine E) (expr : E) (varNames : List String)
    (combo : List String) : Except String String :=
  match mapME eng.sympify combo with
  | .error e => .error e
  | .ok vals =>
    match eng.subs expr (varNames.zip vals) with
    | .error e => .error e
    | .ok substituted =>
      match eng.simplifyE substituted with
      | .error e => .error e
      | .ok simplified => eng.toLatex simplified

/-- The `try:` body of `simple_simplify` (`simplify.py` lines 48-82), up to
but excluding the final deduplication: parse, partition the context, either
run one simplify per element of the Cartesian product of the substitutable
variables' value lists, or — when none are substitutable — simplify the
unsubstituted expression exactly once. -/
def simple_simplify_raw {E : Type} (eng : Engine E) (input : CellFunctionInput) :
    Except String (List String) :=
  match eng.fromLatex (pyStrip input.latex) with
  | .error e => .error e
  | .ok expr =>
    let cvars := substitutableVars eng input.context expr
    if cvars ≠ [] then
      mapME (perComboSimplify eng expr (cvars.map (fun v => v.name)))
        (product (cvars.map (fun v => v.values)))
    else
      match eng.simplifyE expr with
      | .error e => .error e
      | .ok simplified =>
        match eng.toLatex simplified with
        | .error e => .error e
        | .ok l => .ok [l]

/-- `simple_simplify` (`simplify.py` lines 40-98): the raw solutions are
deduplicated by `list(dict.fromkeys(...))`; any exception is absorbed into a
single error line; the context is returned unchanged on every path. -/
def simple_simplify {E : Type} (eng : Engine E) (input : CellFunctionInput) :
    CellFunctionResult :=
  match simple_simplify_raw eng input with
  | .ok raw => ⟨dedupFirstSeen raw, input.context⟩
  | .error e => ⟨["Error simplifying expression: " ++ e], input.context⟩

/-- One combination of `check_equal`'s loop (`check_equal.py` lines 93-102):
substitute the tuple into both sides and simplify each side. -/
def perComboSides {E : Type} (eng : Engine E) (expr : E) (varNames : List String)
    (combo : List String) : Except String (E × E) :=
  match mapME eng.sympify combo with
  | .error e => .error e
  | .ok vals =>
    match eng.subs (eng.lhs expr) (varNames.zip vals) with
    | .error e => .error e
    | .ok l0 =>
      match eng.simplifyE l0 with
      | .error e => .error e
      | .ok l =>
        match eng.subs (eng.rhs expr) (varNames.zip vals) with
        | .error e => .error e
        | .ok r0 =>
          match eng.simplifyE r0 with
          | .error e => .error e
          | .ok r => .ok (l, r)

/-- All per-tuple (lhs, rhs) result pairs of `check_equal`, in product order. -/
def check_equal_pairs {E : Type} (eng : Engine E) (expr : E) (cvars : List Variable) :
    Except String (List (E × E)) :=
  mapME (perComboSides eng expr (cvars.map (fun v => v.name)))
    (product (cvars.map (fun v => v.values)))

/-- `sorted(results, key=str)` — sort symbolic results by their rendered
string representation (stable, Python string order). -/
def sortByStr {E : Type} (eng : Engine E) (l : List E) : List E :=
  sortLe (fun a b => lexLe (eng.reprStr a).data (eng.reprStr b).data) l

/-- The element-by-element comparison loop of `check_equal` (`check_equal.py`
lines 109-113): walk both sorted lists, stopping at the first pair whose
difference does not simplify to zero.  Indexing past the right list (never
reached by the handler, which compares equal-length lists) raises, as
Python's indexing would. -/
def compareSorted {E : Type} (eng : Engine E) : List E → List E → Except String Bool
  | [], _ => .ok true
  | _ :: _, [] => .error "list index out of range"
  | a :: as, b :: bs =>
    match eng.diffIsZero a b with
    | .error e => .error e
    | .ok z => if z then compareSorted eng as bs else .ok false

/-- The `try:` body of `check_equal` (`check_equal.py` lines 56-121): parse;
non-equalities short-circuit; with no substitutable context variables the
two sides are compared once directly; otherwise every tuple of the Cartesian
product is substituted into both sides, the per-side result lists are sorted
by string form, and compared element by element. -/
def check_equal_visible {E : Type} (eng : Engine E) (input : CellFunctionInput) :
    Except String (List String) :=
  match eng.fromLatex (pyStrip input.latex) with
  | .error e => .error e
  | .ok expr =>
    if !(eng.isEquality expr) then .ok ["Not an equation"]
    else
      let cvars := substitutableVars eng input.context expr
      if cvars = [] then
        match eng.simplifyE (eng.lhs expr) with
        | .error e => .error e
        | .ok lhs =>
          match eng.simplifyE (eng.rhs expr) with
          | .error e => .error e
          | .ok rhs =>
            match eng.diffIsZero lhs rhs with
            | .error e => .error e
            | .ok isEq => .ok [if isEq then "True" else "False"]
      else
        match check_equal_pairs eng expr cvars with
        | .error e => .error e
        | .ok pairs =>
          match compareSorted eng (sortByStr eng (pairs.map (fun p => p.fst)))
              (sortByStr eng (pairs.map (fun p => p.snd))) with
          | .error e => .error e
          | .ok allEq => .ok [if allEq then "True" else "False"]

/-- `check_equal` (`check_equal.py` lines 48-128): exceptions are absorbed
into a single error line; the context is returned unchanged on every path. -/
def check_equal {E : Type} (eng : Engine E) (input : CellFunctionInput) :
    CellFunctionResult :=
  match check_equal_visible eng input with
  | .ok vs => ⟨vs, input.context⟩
  | .error e => ⟨["Error checking equality: " ++ e], input.context⟩

/-- The fallback variable choice of `solve_simple` (`solve_simple.py` lines
100-105): among the equation's free symbols sorted by name, the first whose
name is not already in the context. -/
def pickFallbackVar {E : Type} (eng : Engine E) (input : CellFunctionInput)
    (equation : E) : Option String :=
  (sortedStr (eng.freeSymbols equation)).find?
    (fun c => !((input.context.vars.map (fun v => v.name)).contains c))

/-- The no-selection fallback of `solve_simple` (`solve_simple.py` lines
92-111): with no free symbols, report so; otherwise choose the smallest free
symbol absent from the context, or report that every variable is already
defined. -/
def fallbackVarChoice {E : Type} (eng : Engine E) (input : CellFunctionInput)
    (equation : E) : Sum String CellFunctionResult :=
  if (eng.freeSymbols equation).isEmpty then
    .inr ⟨["No variables to solve for"], input.context⟩
  else
    match pickFallbackVar eng input equation with
    | none => .inr ⟨["All variables already defined in context"], input.context⟩
    | some v => .inl v

/-- The variable-selection phase of `solve_simple` (`solve_simple.py` lines
88-121): honour a non-empty "Solve for" dropdown selection when it names a
free symbol of the equation; otherwise fall back to the smallest free symbol
absent from the context.  Each failure mode is an early-returned result. -/
def dropdownVarChoice {E : Type} (eng : Engine E) (input : CellFunctionInput)
    (equation : E) : Sum String CellFunctionResult :=
  match input.get_dropdown_selection "Solve for" with
  | none => fallbackVarChoice eng input equation
  | some name =>
    if name == "" then fallbackVarChoice eng input equation
    else if (eng.freeSymbols equation).contains name then .inl name
    else .inr ⟨["Variable " ++ name ++ " not found in equation"], input.context⟩

/-- The per-tuple solving loop of `solve_simple` (`solve_simple.py` lines
143-153): one `solve` invocation per element of the Cartesian product of the
substitutable variables' value lists; the returned list has one entry (the
solution list) per invocation. -/
def solve_simple_solutionLists {E : Type} (eng : Engine E) (equation : E)
    (var : String) (cvars : List Variable) : Except String (List (List E)) :=
  mapME (fun combo =>
      match mapME eng.sympify combo with
      | .error e => .error e
      | .ok vals =>
        match eng.subs equation ((cvars.map (fun v => v.name)).zip vals) with
        | .error e => .error e
        | .ok substituted => eng.solveE substituted var)
    (product (cvars.map (fun v => v.values)))

/-- The result-formatting tail of `solve_simple` (`solve_simple.py` lines
159-185): when solutions exist, render each as `var = solution`, collect the
plain string forms, and produce a context in which the solved variable's
entry (if any) is superseded by a fresh analytical variable holding the
solution strings; otherwise report no solution over the unchanged variable
list. -/
def solve_simple_finish {E : Type} (eng : Engine E) (input : CellFunctionInput)
    (var : String) (all_solutions : List E) : Except String CellFunctionResult :=
  if !all_solutions.isEmpty then
    match mapME (fun sol =>
        match eng.toLatex (eng.mkEq var sol) with
        | .error e => .error e
        | .ok l => .ok (l, eng.reprStr sol)) all_solutions with
    | .error e => .error e
    | .ok pairs =>
      .ok ⟨pairs.map (fun p => p.fst),
        ⟨(input.context.vars.filter (fun v => v.name ≠ var)) ++
          [Variable.create_analytical var (pairs.map (fun p => p.snd))]⟩⟩
  else
    .ok ⟨["No solution found for " ++ var], input.context⟩

/-- The ``try:`` body of `solve_simple` (`solve_simple.py` lines 74-185):
parse; require an equation shape; pick the variable; substitute every tuple
of the Cartesian product of the other free context variables' value lists
(`context_vars_with_values` keeps any free context variable other than the
target, with no emptiness check on its value list); collect the solutions of
each invocation into a set keyed by symbolic equality; format. -/
def solve_simple_body {E : Type} (eng : Engine E) (input : CellFunctionInput) :
    Except String CellFunctionResult :=
  match eng.fromLatex (pyStrip input.latex) with
  | .error e => .error e
  | .ok expr =>
    if !(eng.hasLhsRhs expr) then
      .ok ⟨["Unable to solve: not an equation"], input.context⟩
    else
      match dropdownVarChoice eng input expr with
      | .inr early => .ok early
      | .inl var =>
        let cvars := input.context.vars.filter (fun cv =>
          cv.name ≠ var ∧ (eng.freeSymbols expr).contains cv.name)
        if cvars ≠ [] then
          match solve_simple_solutionLists eng expr var cvars with
          | .error e => .error e
          | .ok lists => solve_simple_finish eng input var (setAddAll eng.eeq [] lists.flatten)
        else
          match eng.solveE expr var with
          | .error e => .error e
          | .ok sols => solve_simple_finish eng input var (setAddAll eng.eeq [] sols)

/-- `solve_simple` (`solve_simple.py` lines 66-192): exceptions are absorbed
into a single error line with the input context returned unchanged. -/
def solve_simple {E : Type} (eng : Engine E) (input : CellFunctionInput) :
    CellFunctionResult :=
  match solve_simple_body eng input with
  | .ok r => r
  | .error e => ⟨["Error solving equation: " ++ e], input.context⟩

/-- The rendering loop inside `solve_ode`'s inner ``try:`` (`solve_ode.py`
lines 140-144): render each solution; a rendering failure keeps the lines
already produced, appends one error line, and stops. -/
def odeRender {E : Type} (eng : Engine E) : List E → List String
  | [] => []
  | s :: ss =>
    match eng.toLatex s with
    | .ok l => l :: odeRender eng ss
    | .error e => ["Could not solve ODE: " ++ e]

/-- One guarded `dsolve` attempt of `solve_ode` (`solve_ode.py` lines
133-144 and 147-158): the inner ``try:`` absorbs a `dsolve` or rendering
failure into a single "Could not solve ODE" line instead of raising. -/
def odeTryOnce {E : Type} (eng : Engine E) (substituted func : E) : List String :=
  match eng.dsolveE substituted func with
  | .error e => ["Could not solve ODE: " ++ e]
  | .ok sols => odeRender eng sols

/-- The ``try:`` body of `solve_ode` (`solve_ode.py` lines 50-166): parse;
require an equation containing a derivative; rebuild the equation in
functional form (a symbolic-object rewrite performed entirely with engine
primitives, abstracted as `buildFunctionalEquation`); substitute every tuple
of the Cartesian product of the free context variables' value lists (here
`context_vars_with_values` has no emptiness check), running one guarded
`dsolve` per tuple; the context is never modified. -/
def solve_ode_visible {E : Type} (eng : Engine E) (input : CellFunctionInput) :
    Except String (List String) :=
  match eng.fromLatex (pyStrip input.latex) with
  | .error e => .error e
  | .ok expr =>
    if !(eng.isEquality expr) then .ok ["Unable to solve: not an equation"]
    else if (eng.atomsDerivative expr).isEmpty then
      .ok ["No derivatives found in equation"]
    else
      match eng.buildFunctionalEquation expr with
      | .error e => .error e
      | .ok (equation, func) =>
        let cvars := input.context.vars.filter (fun cv =>
          (eng.freeSymbols equation).contains cv.name)
        if cvars ≠ [] then
          match mapME (fun combo =>
              match mapME eng.sympify combo with
              | .error e => .error e
              | .ok vals =>
                match eng.subs equation ((cvars.map (fun v => v.name)).zip vals) with
                | .error e => .error e
                | .ok substituted => .ok (odeTryOnce eng substituted func))
            (product (cvars.map (fun v => v.values))) with
          | .error e => .error e
          | .ok runs => .ok runs.flatten
        else
          .ok (odeTryOnce eng equation func)

/-- `solve_ode` (`solve_ode.py` lines 44-173): exceptions escaping the body
are absorbed into a single error line; the context is returned unchanged on
every path. -/
def solve_ode {E : Type} (eng : Engine E) (input : CellFunctionInput) :
    CellFunctionResult :=
  match solve_ode_visible eng input with
  | .ok vs => ⟨vs, input.context⟩
  | .error e => ⟨["Error solving differential equation: " ++ e], input.context⟩

/-- A non-applicable probe answer for the given priority and name. -/
def metaNo (index : Nat) (name : String) : MetaFunctionResult :=
  ⟨index, name, false, []⟩

/-- The ``try:`` body of `meta_solve_simple` (`solve_simple.py` lines 19-60):
applicable only when the cell parses to an equation with at least one free
symbol and at least one free symbol absent from the context; in that case a
"Solve for" dropdown lists the sorted unsolved variables. -/
def meta_solve_simple_body {E : Type} (eng : Engine E) (input : CellFunctionInput) :
    Except String MetaFunctionResult :=
  let latex := pyStrip input.latex
  if latex = "" then .ok (metaNo 100 "Simple Solver")
  else
    match eng.fromLatex latex with
    | .error e => .error e
    | .ok expr =>
      if !(eng.isEquality expr) then .ok (metaNo 100 "Simple Solver")
      else if (eng.freeSymbols expr).isEmpty then .ok (metaNo 100 "Simple Solver")
      else
        let unsolved := (sortedStr (eng.freeSymbols expr)).filter
          (fun s => !((input.context.vars.map (fun v => v.name)).contains s))
        if unsolved.isEmpty then .ok (metaNo 100 "Simple Solver")
        else .ok ⟨100, "Simple Solver", true, [⟨"Solve for", unsolved⟩]⟩

/-- `meta_solve_simple` (`solve_simple.py` lines 7-63): any internal failure
is folded into a non-applicable result; the probe never raises. -/
def meta_solve_simple {E : Type} (eng : Engine E) (input : CellFunctionInput) :
    MetaFunctionResult :=
  match meta_solve_simple_body eng input with
  | .ok r => r
  | .error _ => metaNo 100 "Simple Solver"

/-- The ``try:`` body of `meta_check_equal` (`check_equal.py` lines 16-42):
applicable only when the cell parses to an equation all of whose free
symbols are defined in the context. -/
def meta_check_equal_body {E : Type} (eng : Engine E) (input : CellFunctionInput) :
    Except String MetaFunctionResult :=
  let latex := pyStrip input.latex
  if latex = "" then .ok (metaNo 25 "Check Equality")
  else
    match eng.fromLatex latex with
    | .error e => .error e
    | .ok expr =>
      if !(eng.isEquality expr) then .ok (metaNo 25 "Check Equality")
      else if (eng.freeSymbols expr).all
          (fun s => (input.context.vars.map (fun v => v.name)).contains s) then
        .ok ⟨25, "Check Equality", true, []⟩
      else .ok (metaNo 25 "Check Equality")

/-- `meta_check_equal` (`check_equal.py` lines 7-45): any internal failure is
folded into a non-applicable result; the probe never raises. -/
def meta_check_equal {E : Type} (eng : Engine E) (input : CellFunctionInput) :
    MetaFunctionResult :=
  match meta_check_equal_body eng input with
  | .ok r => r
  | .error _ => metaNo 25 "Check Equality"

/-- The ``try:`` body of `meta_simple_simplify` (`simplify.py` lines 15-34):
applicable only when the cell parses to a non-equation whose raw LaTeX
contains no equals sign. -/
def meta_simple_simplify_body {E : Type} (eng : Engine E) (input : CellFunctionInput) :
    Except String MetaFunctionResult :=
  let latex := pyStrip input.latex
  if latex = "" then .ok (metaNo 50 "Simplify")
  else
    match eng.fromLatex latex with
    | .error e => .error e
    | .ok expr =>
      if eng.isEquality expr then .ok (metaNo 50 "Simplify")
      else if latex.data.contains '=' then .ok (metaNo 50 "Simplify")
      else .ok ⟨50, "Simplify", true, []⟩

/-- `meta_simple_simplify` (`simplify.py` lines 7-37): any internal failure
is folded into a non-applicable result; the probe never raises. -/
def meta_simple_simplify {E : Type} (eng : Engine E) (input : CellFunctionInput) :
    MetaFunctionResult :=
  match meta_simple_simplify_body eng input with
  | .ok r => r
  | .error _ => metaNo 50 "Simplify"

/-- The ``try:`` body of `meta_solve_ode` (`solve_ode.py` lines 17-38):
applicable only when the cell parses to an equation containing a
derivative. -/
def meta_solve_ode_body {E : Type} (eng : Engine E) (input : CellFunctionInput) :
    Except String MetaFunctionResult :=
  let latex := pyStrip input.latex
  if latex = "" then .ok (metaNo 90 "ODE Solver")
  else
    match eng.fromLatex latex with
    | .error e => .error e
    | .ok expr =>
      if !(eng.isEquality expr) then .ok (metaNo 90 "ODE Solver")
      else if (eng.atomsDerivative expr).isEmpty then .ok (metaNo 90 "ODE Solver")
      else .ok ⟨90, "ODE Solver", true, []⟩

/-- `meta_solve_ode` (`solve_ode.py` lines 8-41): any internal failure is
folded into a non-applicable result; the probe never raises. -/
def meta_solve_ode {E : Type} (eng : Engine E) (input : CellFunctionInput) :
    MetaFunctionResult :=
  match meta_solve_ode_body eng input with
  | .ok r => r
  | .error _ => metaNo 90 "ODE Solver"

/-- The length of a text's leading whitespace run. -/
def countWs : List Char → Nat
  | [] => 0
  | c :: cs => if isPyWs c then countWs cs + 1 else 0

/-- Skip a run of Python `\s` whitespace: first index at or after `i` whose
character is not whitespace (or the end of the text). -/
def skipWs (s : List Char) (i : Nat) : Nat := i + countWs (s.drop i)

/-- Match `re` pattern `\\int\s*_` anchored at index `i`: literal `\int`,
optional whitespace, then `_`; returns the index just past the `_`. -/
def matchIntAt (s : List Char) (i : Nat) : Option Nat :=
  if ['\\', 'i', 'n', 't'].isPrefixOf (s.drop i) then
    let p := skipWs s (i + 4)
    if s[p]? = some '_' then some (p + 1) else none
  else none

/-- `re.search(r'\\int\s*_', s)` scanning position by position; the first
argument counts the remaining positions to try. -/
def findIntAux (s : List Char) : List Char → Nat → Option (Nat × Nat)
  | [], _ => none
  | _ :: rest, i =>
    match matchIntAt s i with
    | some e => some (i, e)
    | none => findIntAux s rest (i + 1)

/-- `re.search(r'\\int\s*_', s)`. -/
def findIntMarker (s : List Char) : Option (Nat × Nat) := findIntAux s s 0

/-- The brace-counting loop of `evaluate_integrals` (`evaluate_integrals_macro.py`
lines 46-53): starting just inside an opening brace with `brace_count = 1`,
advance while characters remain and the counter is positive, incrementing on
`{` and decrementing on `}`; returns the final position and counter. -/
def braceAux : List Char → Nat → Nat → Nat × Nat
  | [], pos, cnt => (pos, cnt)
  | c :: rest, pos, cnt =>
    if cnt = 0 then (pos, cnt)
    else braceAux rest (pos + 1) (if c = '{' then cnt + 1 else if c = '}' then cnt - 1 else cnt)

/-- The brace-counting scan over the text from absolute position `pos`. -/
def braceScanC (s : List Char) (pos cnt : Nat) : Nat × Nat :=
  braceAux (s.drop pos) pos cnt

/-- Bound extraction of `evaluate_integrals` (`evaluate_integrals_macro.py`
lines 43-58 and 63-78): a brace-delimited bound is the text scanned until
the nesting counter returns to zero (excluding the final position's
character); a bare bound is the single character at `pos` (empty past the
end).  Returns the bound text and the position after it. -/
def parseBound (s : List Char) (pos : Nat) : List Char × Nat :=
  if s[pos]? = some '{' then
    let p := (braceScanC s (pos + 1) 1).fst
    (pySlice s (pos + 1) (p - 1), p)
  else
    (match s[pos]? with | some c => [c] | none => [], pos + 1)

/-- `re.search(r'd([a-zA-Z])', ...)` over a character suffix, tracking the
absolute index of its head. -/
def findDAux : List Char → Nat → Option (Nat × Char)
  | c0 :: c1 :: rest, j =>
    if c0 = 'd' ∧ c1.isAlpha then some (j, c1) else findDAux (c1 :: rest) (j + 1)
  | _, _ => none

/-- `re.search(r'd([a-zA-Z])', rem)` from index `j`: the leftmost `d`
followed by an ASCII letter; returns the match start and the letter. -/
def findDMatch (rem : List Char) (j : Nat) : Option (Nat × Char) :=
  findDAux (rem.drop j) j

/-- Bound resolution of `evaluate_integrals` (`evaluate_integrals_macro.py`
lines 112-117): if some context variable's name equals the bound text and it
has values, its first value replaces the bound text (later matches win). -/
def resolveBoundVal (ctx : Context) (b : List Char) : List Char :=
  ctx.vars.foldl (fun acc cv =>
    match cv.values with
    | [] => acc
    | v :: _ => if cv.name.data = b then v.data else acc) b

/-- The substitution dictionary for the integrand (`evaluate_integrals_macro.py`
lines 127-134): every context variable other than the integration variable
with a non-empty value list contributes its first value; a `sympify` failure
on a value is silently skipped (`except: pass`). -/
def integrandSubsDict {E : Type} (eng : Engine E) (ctx : Context) (var : Char) :
    List (String × E) :=
  ctx.vars.foldl (fun acc cv =>
    match cv.values with
    | [] => acc
    | v :: _ =>
      if cv.name = String.mk [var] then acc
      else
        match eng.sympify v with
        | .ok e => acc ++ [(cv.name, e)]
        | .error _ => acc) []

/-- The ``try:`` block of one integral resolution (`evaluate_integrals_macro.py`
lines 107-148): resolve the bounds against the context, convert and parse
the integrand, substitute the other context variables, evaluate the
definite integral, numerically approximate it and render it. -/
def integAttemptTry {E : Type} (eng : Engine E) (ctx : Context) (var : Char)
    (integrandLatex lowerB upperB : List Char) : Except String (List Char) :=
  let lowerVal := resolveBoundVal ctx lowerB
  let upperVal := resolveBoundVal ctx upperB
  match eng.latexToSympyStr (String.mk integrandLatex) with
  | .error e => .error e
  | .ok integrandStr =>
    match eng.sympify integrandStr with
    | .error e => .error e
    | .ok integrand0 =>
      match (if (integrandSubsDict eng ctx var).isEmpty then .ok integrand0
          else eng.subs integrand0 (integrandSubsDict eng ctx var) :
          Except String E) with
      | .error e => .error e
      | .ok integrand =>
        match eng.sympify (String.mk lowerVal) with
        | .error e => .error e
        | .ok lo =>
          match eng.sympify (String.mk upperVal) with
          | .error e => .error e
          | .ok hi =>
            match eng.integrateDef integrand (String.mk [var]) lo hi with
            | .error e => .error e
            | .ok result => .ok (eng.reprStr (eng.numApprox result)).data

/-- One integral-resolution attempt after a marker match at
(`startPos`, `mEnd`): parse the lower bound, require `^`, parse the upper
bound, locate the differential token, extract and clean the integrand, and
run the resolution; `some (integralEnd, resultText)` on success, `none` on
any of the failure paths (each of which the source follows with the skip
rewrite and a `break`). -/
def integAttempt {E : Type} (eng : Engine E) (ctx : Context) (s : List Char)
    (mEnd : Nat) : Option (Nat × List Char) :=
  if s[(parseBound s mEnd).snd]? = some '^' then
    match findDMatch (s.drop (parseBound s ((parseBound s mEnd).snd + 1)).snd) 0 with
    | none => none
    | some (j, varC) =>
      match integAttemptTry eng ctx varC
          (trimWs (replaceSub ['\\', 'r', 'i', 'g', 'h', 't', ')'] [')']
            (replaceSub ['\\', 'l', 'e', 'f', 't', '('] ['(']
              (trimWs (pySlice s (parseBound s ((parseBound s mEnd).snd + 1)).snd
                ((parseBound s ((parseBound s mEnd).snd + 1)).snd + j))))))
          (parseBound s mEnd).fst (parseBound s ((parseBound s mEnd).snd + 1)).fst with
      | .error _ => none
      | .ok res => some ((parseBound s ((parseBound s mEnd).snd + 1)).snd + j + 2, res)
  else none

/-- The placeholder marker `__SKIP_INTEGRAL__` of the failure paths. -/
def skipMarkerPat : List Char := "__SKIP_INTEGRAL__".data

/-- The failure-path rewrite (`evaluate_integrals_macro.py` lines 81-82,
93-94 and 152-153): splice the marker over the matched `\int…_` span, then
replace every occurrence of the marker by `\int_`. -/
def skipRewrite (s : List Char) (startPos mEnd : Nat) : List Char :=
  replaceSub skipMarkerPat ['\\', 'i', 'n', 't', '_']
    (s.take startPos ++ skipMarkerPat ++ s.drop mEnd)

/-- One iteration of `evaluate_integrals`' ``while True:`` loop. -/
inductive StepOut where
  | broke (s : List Char)
  | again (s : List Char)
deriving Repr, DecidableEq

/-- One iteration of the scan-resolve-rewrite loop (`evaluate_integrals_macro.py`
lines 33-154): no marker ends the loop; a failed attempt performs the skip
rewrite and ends the loop (every failure path ``break``s); a successful
attempt splices the rendered result over the full matched span and loops. -/
def integStep {E : Type} (eng : Engine E) (ctx : Context) (s : List Char) : StepOut :=
  match findIntMarker s with
  | none => .broke s
  | some (startPos, mEnd) =>
    match integAttempt eng ctx s mEnd with
    | none => .broke (skipRewrite s startPos mEnd)
    | some (integralEnd, res) => .again (s.take startPos ++ res ++ s.drop integralEnd)

/-- The ``while True:`` loop, embedded with explicit fuel: `none` models a
run that exceeds the fuel (the source's loop is unbounded — it has no
iteration cap). -/
def integLoop {E : Type} (eng : Engine E) (ctx : Context) : Nat → List Char →
    Option (List Char)
  | 0, _ => none
  | fuel + 1, s =>
    match integStep eng ctx s with
    | .broke out => some out
    | .again s' => integLoop eng ctx fuel s'

/-- `evaluate_integrals` (`evaluate_integrals_macro.py` lines 14-156) with
explicit fuel for the unbounded rewrite loop. -/
def evaluate_integrals {E : Type} (eng : Engine E) (fuel : Nat)
    (input : ProcMacroInput) : Option ProcMacroResult :=
  (integLoop eng input.context fuel input.latex.data).map (fun l => ⟨String.mk l⟩)

/-- `meta_evaluate_integrals` (`evaluate_integrals_macro.py` lines 159-176):
applicable exactly when the markup contains a definite-integral marker. -/
def meta_evaluate_integrals {E : Type} (_eng : Engine E) (input : ProcMacroInput) :
    MetaFunctionResult :=
  ⟨3, "Evaluate Integrals", (findIntMarker input.latex.data).isSome, []⟩

/-- A small symbolic-expression type standing in for sympy expressions in
concrete evaluations.  `num`/`fnum` mirror sympy's `Integer` and `Float`
(which compare and hash equal at equal values while printing differently);
`rat` mirrors `Rational`; `dec` a numerically evaluated `Float` literal. -/
inductive TExpr where
  | num (n : Int)
  | fnum (n : Int)
  | rat (p q : Int)
  | dec (s : String)
  | sym (s : String)
  | add (a b : TExpr)
  | pow (b : TExpr) (n : Nat)
  | eqn (a b : TExpr)
  | deriv (e : TExpr)
deriving Repr, DecidableEq

/-- Free symbols of a `TExpr`, first occurrence first, deduplicated. -/
def collectSyms : TExpr → List String
  | .sym s => [s]
  | .add a b => dedupFirstSeen (collectSyms a ++ collectSyms b)
  | .pow b _ => collectSyms b
  | .eqn a b => dedupFirstSeen (collectSyms a ++ collectSyms b)
  | .deriv e => collectSyms e
  | _ => []

/-- Derivative atoms of a `TExpr`. -/
def collectDerivs : TExpr → List TExpr
  | .add a b => collectDerivs a ++ collectDerivs b
  | .pow b _ => collectDerivs b
  | .eqn a b => collectDerivs a ++ collectDerivs b
  | .deriv e => [.deriv e]
  | _ => []

/-- Substitute symbols by the association list (sympy `.subs`). -/
def substT (sd : List (String × TExpr)) : TExpr → TExpr
  | .sym s =>
    match sd.find? (fun p => p.fst == s) with
    | some p => p.snd
    | none => .sym s
  | .add a b => .add (substT sd a) (substT sd b)
  | .pow b n => .pow (substT sd b) n
  | .eqn a b => .eqn (substT sd a) (substT sd b)
  | .deriv e => .deriv (substT sd e)
  | e => e

/-- Constant folding, the toy `simplify`. -/
def simpT : TExpr → TExpr
  | .add a b =>
    match simpT a, simpT b with
    | .num x, .num y => .num (x + y)
    | a', b' => .add a' b'
  | .eqn a b => .eqn (simpT a) (simpT b)
  | .pow b n => .pow (simpT b) n
  | .deriv e => .deriv (simpT e)
  | e => e

/-- The numeric value of a `TExpr` when it is a plain number. -/
def tval : TExpr → Option Int
  | .num n => some n
  | .fnum n => some n
  | _ => none

/-- sympy `==`-equality: numbers compare by value across `Integer`/`Float`,
everything else structurally. -/
def teeq (a b : TExpr) : Bool :=
  match tval a, tval b with
  | some x, some y => x == y
  | _, _ => a == b

/-- `str(expr)`, mirroring sympy's printer on the values that occur here
(`str(Float(1.0)) = "1.00000000000000"`). -/
def treprStr : TExpr → String
  | .num n => toString n
  | .fnum n => toString n ++ ".00000000000000"
  | .rat p q => toString p ++ "/" ++ toString q
  | .dec s => s
  | .sym s => s
  | .add a b => treprStr a ++ " + " ++ treprStr b
  | .pow b n => treprStr b ++ "**" ++ toString n
  | .eqn a b => "Eq(" ++ treprStr a ++ ", " ++ treprStr b ++ ")"
  | .deriv e => "Derivative(" ++ treprStr e ++ ")"

/-- `to_latex`, rendering equalities with an infix equals sign. -/
def tToLatex : TExpr → String
  | .eqn a b => treprStr a ++ " = " ++ treprStr b
  | e => treprStr e

/-- The toy parser table for the markup snippets exercised below. -/
def tFromLatex : String → Except String TExpr
  | "x = a" => .ok (.eqn (.sym "x") (.sym "a"))
  | "x = y" => .ok (.eqn (.sym "x") (.sym "y"))
  | "x = y + 0" => .ok (.eqn (.sym "x") (.add (.sym "y") (.num 0)))
  | "x + y = 5" => .ok (.eqn (.add (.sym "x") (.sym "y")) (.num 5))
  | "Df = a" => .ok (.eqn (.deriv (.sym "f")) (.sym "a"))
  | "y + 0" => .ok (.add (.sym "y") (.num 0))
  | s => .error ("ParseError: " ++ s)

/-- A small decimal-numeral parser (standing in for sympy's numeral
handling; kernel-reducible, unlike `String.toInt?`). -/
def tParseInt (s : String) : Option Int :=
  if s.data ≠ [] ∧ s.data.all (fun c => c.isDigit) then
    some (Int.ofNat (s.data.foldl (fun acc c => acc * 10 + (c.toNat - 48)) 0))
  else none

/-- The toy `sympify` table: decimal numerals, the one float literal and
the parenthesised atoms exercised here; a bare identifier becomes a symbol,
as sympy's `sympify` turns any plain name into a `Symbol` rather than
raising. -/
def tSympify (s : String) : Except String TExpr :=
  match tParseInt s with
  | some n => .ok (.num n)
  | none =>
    match s with
    | "1.0" => .ok (.fnum 1)
    | "(x)" => .ok (.sym "x")
    | "(x**2)" => .ok (.pow (.sym "x") 2)
    | _ =>
      if s.data ≠ [] ∧ s.data.all (fun c => c.isAlpha) then .ok (.sym s)
      else .error ("SympifyError: " ++ s)

/-- The toy solver: `solve(Eq(x, rhs), x) = [rhs]`, and the linear case
`solve(Eq(c + x, d), x) = [d - c]`. -/
def tSolve (e : TExpr) (var : String) : Except String (List TExpr) :=
  match e with
  | .eqn (.sym v) r => if v = var then .ok [r] else .error "solve: unsupported"
  | .eqn (.add (.num c) (.sym v)) (.num d) =>
    if v = var then .ok [.num (d - c)] else .error "solve: unsupported"
  | _ => .error "solve: unsupported"

/-- The toy definite integrator: `integrate(x**2, (x, 0, 2)) = 8/3`. -/
def tIntegrate (integrand : TExpr) (var : String) (lo hi : TExpr) :
    Except String TExpr :=
  match integrand, lo, hi with
  | .pow (.sym v) 2, .num 0, .num 2 =>
    if v = var then .ok (.rat 8 3) else .error "IntegrationError"
  | _, _, _ => .error "IntegrationError"

/-- The toy `N(...)`: `N(8/3)` prints as `2.66666666666667`. -/
def tNumApprox : TExpr → TExpr
  | .rat 8 3 => .dec "2.66666666666667"
  | e => e

/-- The toy `_latex_to_sympy_str`: rewrite `^` exponent syntax, identity on
everything else exercised here. -/
def tLatexToSympyStr : String → Except String String
  | "(x^2)" => .ok "(x**2)"
  | s => .ok s

/-- The concrete engine instance used for evaluating the handlers on the
inputs below; each primitive mirrors sympy's actual behaviour there. -/
def toyEngine : Engine TExpr where
  fromLatex := tFromLatex
  isEquality := fun e => match e with | .eqn _ _ => true | _ => false
  hasLhsRhs := fun e => match e with | .eqn _ _ => true | _ => false
  lhs := fun e => match e with | .eqn a _ => a | e => e
  rhs := fun e => match e with | .eqn _ b => b | e => e
  freeSymbols := collectSyms
  sympify := tSympify
  subs := fun e sd => .ok (substT sd e)
  simplifyE := fun e => .ok (simpT e)
  diffIsZero := fun a b => .ok (teeq a b)
  solveE := tSolve
  mkEq := fun var sol => .eqn (.sym var) sol
  toLatex := fun e => .ok (tToLatex e)
  reprStr := treprStr
  eeq := teeq
  atomsDerivative := collectDerivs
  buildFunctionalEquation := fun e => .ok (e, .sym "f")
  dsolveE := fun _ _ => .error "dboom"
  latexToSympyStr := tLatexToSympyStr
  integrateDef := tIntegrate
  numApprox := tNumApprox

/-- A degenerate engine over `Unit` whose renderings are backslash-free;
used to instantiate engine-generic statements. -/
def nullEngine : Engine Unit where
  fromLatex := fun _ => .error "ParseError"
  isEquality := fun _ => false
  hasLhsRhs := fun _ => false
  lhs := id
  rhs := id
  freeSymbols := fun _ => []
  sympify := fun _ => .error "SympifyError"
  subs := fun e _ => .ok e
  simplifyE := fun e => .ok e
  diffIsZero := fun _ _ => .ok false
  solveE := fun _ _ => .error "solve"
  mkEq := fun _ e => e
  toLatex := fun _ => .ok ""
  reprStr := fun _ => "0"
  eeq := fun _ _ => true
  atomsDerivative := fun _ => []
  buildFunctionalEquation := fun e => .ok (e, e)
  dsolveE := fun _ _ => .error "dsolve"
  latexToSympyStr := fun s => .ok s
  integrateDef := fun _ _ _ _ => .error "IntegrationError"
  numApprox := id

/-- Context `{a: [1, 2]}`. -/
def ctxA12 : Context := ⟨[⟨"a", ["1", "2"], VarKind.analytical⟩]⟩

/-- An input whose markup no engine table entry parses. -/
def inputBad : CellFunctionInput := ⟨"zzz", ⟨[]⟩, []⟩

/-- ODE cell `Df = a` under `{a: [1, 2]}`. -/
def odeIn : CellFunctionInput := ⟨"Df = a", ctxA12, []⟩

/-- Simplify cell `y + 0` under `{y: [1, 2]}`. -/
def c2wIn : CellFunctionInput := ⟨"y + 0", ⟨[⟨"y", ["1", "2"], VarKind.analytical⟩]⟩, []⟩

/-- Solve cell `x = a` under `{a: []}` — a free context variable with an
empty value list. -/
def c2cIn : CellFunctionInput := ⟨"x = a", ⟨[⟨"a", [], VarKind.analytical⟩]⟩, []⟩

/-- Solve cell `x = a` under `{a: [1, 1.0]}` — two values that are
symbolically equal but print differently. -/
def c3In : CellFunctionInput := ⟨"x = a", ⟨[⟨"a", ["1", "1.0"], VarKind.analytical⟩]⟩, []⟩

/-- Solve cell `x + y = 5` under `{x: [2]}` (specification scenario 1). -/
def c5aIn : CellFunctionInput := ⟨"x + y = 5", ⟨[⟨"x", ["2"], VarKind.analytical⟩]⟩, []⟩

/-- Solve cell `x = y` with both variables already in the context. -/
def c5cIn : CellFunctionInput :=
  ⟨"x = y", ⟨[⟨"x", ["1"], VarKind.analytical⟩, ⟨"y", ["2"], VarKind.analytical⟩]⟩, []⟩

/-- Equality cell `x = y` under `{x: [1,2,3], y: [3,1,2]}` (specification
scenario 2). -/
def c6exIn : CellFunctionInput :=
  ⟨"x = y", ⟨[⟨"x", ["1", "2", "3"], VarKind.analytical⟩,
    ⟨"y", ["3", "1", "2"], VarKind.analytical⟩]⟩, []⟩

/-- Equality cell `x = y + 0` under `{x: [1,2], y: [2,1]}`. -/
def c6cIn : CellFunctionInput :=
  ⟨"x = y + 0", ⟨[⟨"x", ["1", "2"], VarKind.analytical⟩,
    ⟨"y", ["2", "1"], VarKind.analytical⟩]⟩, []⟩

/-- The specification's integral example `∫_{0}^{2}(x^2) dx`, empty context. -/
def c9In : ProcMacroInput := ⟨"\\int_{0}^{2}(x^2) dx", ⟨[]⟩⟩

/-- Two integrals, the first malformed — its upper bound is missing (no `^`
after `_{0}`) — the second the resolvable `∫_{0}^{2}(x^2) dx`. -/
def c7In : ProcMacroInput := ⟨"\\int_{0}(x) dx + \\int_{0}^{2}(x^2) dx", ⟨[]⟩⟩

/-- Just the second construct of `c7In`, on its own. -/
def c7TailIn : ProcMacroInput := ⟨"\\int_{0}^{2}(x^2) dx", ⟨[]⟩⟩

/-- Solve cell `x + y = 5` with an explicit "Solve for" selection of `x`. -/
def c5dIn : CellFunctionInput :=
  ⟨"x + y = 5", ⟨[⟨"x", ["2"], VarKind.analytical⟩]⟩, [("Solve for", "x")]⟩

/-- `mapME` preserves the iteration count: a successful run maps each input
element to exactly one output element. -/
theorem mapME_ok_length {α β : Type} (f : α → Except String β) :
    ∀ (l : List α) (l' : List β), mapME f l = .ok l' → l'.length = l.length := by
  intro l
  induction l with
  | nil => intro l' h; simp [mapME] at h; simp [← h]
  | cons x xs ih =>
    intro l' h
    simp only [mapME] at h
    cases hf : f x with
    | error e => rw [hf] at h; exact absurd h (by simp)
    | ok y =>
      rw [hf] at h
      cases hm : mapME f xs with
      | error e => rw [hm] at h; exact absurd h (by simp)
      | ok ys =>
        rw [hm] at h
        cases h
        simp [ih ys hm]

/-- The Cartesian product enumerates exactly the product of the list
lengths. -/
theorem product_length {α : Type} :
    ∀ ls : List (List α), (product ls).length = (ls.map List.length).prod := by
  intro ls
  induction ls with
  | nil => simp [product]
  | cons l ls ih =>
    rw [product, List.length_flatMap]
    simp only [Function.comp_def, List.length_map]
    rw [List.map_const', List.sum_replicate, smul_eq_mul, ih, List.map_cons,
      List.prod_cons]

/-- Membership after the key-insertion walk: an element survives exactly
when it occurs in the input and its key was not already seen. -/
theorem mem_dedupSeen : ∀ (l seen : List String) (x : String),
    x ∈ dedupSeen seen l ↔ x ∈ l ∧ ¬ x ∈ seen := by
  intro l
  induction l with
  | nil => intro seen x; simp [dedupSeen]
  | cons y ys ih =>
    intro seen x
    rw [dedupSeen]
    by_cases hy : seen.contains y
    · rw [if_pos hy]
      rw [ih seen x]
      constructor
      · rintro ⟨h1, h2⟩
        exact ⟨List.mem_cons_of_mem _ h1, h2⟩
      · rintro ⟨h1, h2⟩
        rcases List.mem_cons.mp h1 with rfl | h1
        · exact absurd (List.elem_iff.mp hy) h2
        · exact ⟨h1, h2⟩
    · rw [if_neg hy]
      constructor
      · intro h
        rcases List.mem_cons.mp h with rfl | h
        · refine ⟨List.mem_cons_self _ _, fun hc => ?_⟩
          exact hy (List.elem_iff.mpr hc)
        · rw [ih (seen ++ [y]) x] at h
          refine ⟨List.mem_cons_of_mem _ h.1, fun hc => h.2 (by simp [hc])⟩
      · rintro ⟨h1, h2⟩
        rcases List.mem_cons.mp h1 with rfl | h1
        · exact List.mem_cons_self _ _
        · by_cases hxy : x = y
          · subst hxy; exact List.mem_cons_self _ _
          · refine List.mem_cons_of_mem _ ((ih (seen ++ [y]) x).mpr ⟨h1, ?_⟩)
            simp [h2, hxy]

/-- Everything surviving deduplication was present in the input. -/
theorem mem_of_mem_dedupFirstSeen (l : List String) (x : String)
    (h : x ∈ dedupFirstSeen l) : x ∈ l :=
  ((mem_dedupSeen l [] x).mp h).1

/-- Every input element is represented after deduplication. -/
theorem mem_dedupFirstSeen_of_mem (l : List String) (x : String) (h : x ∈ l) :
    x ∈ dedupFirstSeen l :=
  (mem_dedupSeen l [] x).mpr ⟨h, by simp⟩

/-- The key-insertion walk never emits a seen key, and never emits a key
twice. -/
theorem dedupSeen_nodup : ∀ (l seen : List String), (dedupSeen seen l).Nodup := by
  intro l
  induction l with
  | nil => intro seen; simp [dedupSeen]
  | cons y ys ih =>
    intro seen
    rw [dedupSeen]
    by_cases hy : seen.contains y
    · rw [if_pos hy]; exact ih seen
    · rw [if_neg hy]
      refine List.nodup_cons.mpr ⟨fun hmem => ?_, ih (seen ++ [y])⟩
      have := ((mem_dedupSeen ys (seen ++ [y]) y).mp hmem).2
      simp at this

/-- Deduplication leaves no duplicates. -/
theorem dedupFirstSeen_nodup (l : List String) : (dedupFirstSeen l).Nodup :=
  dedupSeen_nodup l []

/-- The key-insertion walk preserves order: its output is a sublist of its
input. -/
theorem dedupSeen_sublist : ∀ (l seen : List String), (dedupSeen seen l).Sublist l := by
  intro l
  induction l with
  | nil => intro seen; simp [dedupSeen]
  | cons y ys ih =>
    intro seen
    rw [dedupSeen]
    by_cases hy : seen.contains y
    · rw [if_pos hy]
      exact (ih seen).trans (List.sublist_cons_self y ys)
    · rw [if_neg hy]
      exact List.Sublist.cons₂ y (ih (seen ++ [y]))

/-- Deduplication preserves first-seen order: the output is a sublist of the
input. -/
theorem dedupFirstSeen_sublist (l : List String) : (dedupFirstSeen l).Sublist l :=
  dedupSeen_sublist l []

/-- Elements already in the set stay in place: the accumulator is a prefix of
the result. -/
theorem setAddAll_isPrefix {E : Type} (eeq : E → E → Bool) :
    ∀ (xs acc : List E), acc.IsPrefix (setAddAll eeq acc xs) := by
  intro xs
  induction xs with
  | nil => intro acc; simp [setAddAll]
  | cons x xs ih =>
    intro acc
    rw [setAddAll]
    by_cases hany : acc.any (fun y => eeq y x)
    · simpa [hany] using ih acc
    · simp only [hany, if_neg]
      have h1 : acc.IsPrefix (acc ++ [x]) := ⟨[x], rfl⟩
      simp only [Bool.false_eq_true, if_false]
      exact h1.trans (ih (acc ++ [x]))

/-- The set never holds two elements the engine's equality identifies: the
additions preserve pairwise distinctness. -/
theorem setAddAll_pairwise {E : Type} (eeq : E → E → Bool) :
    ∀ (xs acc : List E), acc.Pairwise (fun a b => eeq a b = false) →
      (setAddAll eeq acc xs).Pairwise (fun a b => eeq a b = false) := by
  intro xs
  induction xs with
  | nil => intro acc h; simpa [setAddAll] using h
  | cons x xs ih =>
    intro acc h
    rw [setAddAll]
    by_cases hany : acc.any (fun y => eeq y x)
    · simpa [hany] using ih acc h
    · simp only [hany, Bool.false_eq_true, if_false]
      refine ih (acc ++ [x]) ?_
      rw [List.pairwise_append]
      refine ⟨h, List.pairwise_singleton _ _, ?_⟩
      intro a ha b hb
      simp only [List.mem_singleton] at hb
      subst hb
      simp only [List.any_eq_true, not_exists, not_and] at hany
      exact Bool.not_eq_true _ ▸ (by
        have := hany a ha
        simpa using this)

/-- Every processed element is represented in the set by some element the
engine's equality identifies with it (assuming that equality is reflexive). -/
theorem setAddAll_covers {E : Type} (eeq : E → E → Bool)
    (hrefl : ∀ x, eeq x x = true) :
    ∀ (xs acc : List E) (x : E), x ∈ xs →
      ∃ y ∈ setAddAll eeq acc xs, eeq y x = true := by
  intro xs
  induction xs with
  | nil => intro acc x h; simp at h
  | cons z zs ih =>
    intro acc x h
    rw [setAddAll]
    rcases List.mem_cons.mp h with rfl | hmem
    · by_cases hany : acc.any (fun y => eeq y x)
      · simp only [hany, if_pos]
        rcases List.any_eq_true.mp hany with ⟨y, hy, hyx⟩
        exact ⟨y, (setAddAll_isPrefix eeq zs acc).subset hy, hyx⟩
      · simp only [hany, Bool.false_eq_true, if_false]
        refine ⟨x, (setAddAll_isPrefix eeq zs (acc ++ [x])).subset ?_, hrefl x⟩
        simp
    · by_cases hany : acc.any (fun y => eeq y z)
      · simp only [hany, if_pos]
        exact ih acc x hmem
      · simp only [hany, Bool.false_eq_true, if_false]
        exact ih (acc ++ [z]) x hmem

/-- `lexLe` is reflexive. -/
theorem lexLe_refl : ∀ l : List Char, lexLe l l = true := by
  intro l
  induction l with
  | nil => simp [lexLe]
  | cons c cs ih => simp [lexLe, ih]

/-- `lexLe` is total. -/
theorem lexLe_total : ∀ a b : List Char, lexLe a b = true ∨ lexLe b a = true := by
  intro a
  induction a with
  | nil => intro b; left; simp [lexLe]
  | cons c cs ih =>
    intro b
    cases b with
    | nil => right; simp [lexLe]
    | cons d ds =>
      rcases lt_trichotomy c d with h | h | h
      · left; simp [lexLe, h]
      · subst h
        rcases ih ds with h2 | h2
        · left; simp [lexLe, lt_irrefl, h2]
        · right; simp [lexLe, lt_irrefl, h2]
      · right; simp [lexLe, h]

/-- `lexLe` is transitive. -/
theorem lexLe_trans : ∀ a b c : List Char,
    lexLe a b = true → lexLe b c = true → lexLe a c = true := by
  intro a
  induction a with
  | nil => intro b c _ _; simp [lexLe]
  | cons x xs ih =>
    intro b c hab hbc
    cases b with
    | nil => simp [lexLe] at hab
    | cons y ys =>
      cases c with
      | nil => simp [lexLe] at hbc
      | cons z zs =>
        simp only [lexLe] at hab hbc ⊢
        rcases lt_trichotomy x y with h1 | h1 | h1
        · rcases lt_trichotomy y z with h2 | h2 | h2
          · simp [lt_trans h1 h2]
          · subst h2; simp [h1]
          · exfalso
            simp only [if_neg (asymm h2), if_pos h2] at hbc
            exact Bool.false_ne_true hbc
        · subst h1
          rcases lt_trichotomy x z with h2 | h2 | h2
          · simp [h2]
          · subst h2
            simp only [if_neg (lt_irrefl x)] at hab hbc ⊢
            exact ih _ _ hab hbc
          · exfalso
            simp only [if_neg (asymm h2), if_pos h2] at hbc
            exact Bool.false_ne_true hbc
        · exfalso
          simp only [if_neg (asymm h1), if_pos h1] at hab
          exact Bool.false_ne_true hab

/-- Inserting preserves the multiset of elements. -/
theorem insertLe_perm {α : Type} (le : α → α → Bool) :
    ∀ (l : List α) (x : α), (insertLe le x l).Perm (x :: l) := by
  intro l x
  induction l with
  | nil => simp [insertLe]
  | cons y ys ih =>
    rw [insertLe]
    by_cases h : le y x
    · simp only [h, if_pos]
      exact (ih.cons y).trans (List.Perm.swap x y ys)
    · simp [h]

/-- Sorting preserves the multiset of elements. -/
theorem sortLe_perm {α : Type} (le : α → α → Bool) (l : List α) :
    (sortLe le l).Perm l := by
  suffices h : ∀ (l acc : List α), (l.foldl (fun acc x => insertLe le x acc) acc).Perm
      (acc ++ l) by
    simpa using h l []
  intro l
  induction l with
  | nil => intro acc; simp
  | cons x xs ih =>
    intro acc
    simp only [List.foldl_cons]
    refine (ih (insertLe le x acc)).trans ?_
    exact (((insertLe_perm le acc x).append_right xs).trans List.perm_middle.symm)

/-- Inserting into a `le`-sorted list keeps it sorted. -/
theorem insertLe_pairwise {α : Type} (le : α → α → Bool)
    (htot : ∀ a b, le a b = true ∨ le b a = true)
    (htrans : ∀ a b c, le a b = true → le b c = true → le a c = true) :
    ∀ (l : List α) (x : α), l.Pairwise (fun a b => le a b = true) →
      (insertLe le x l).Pairwise (fun a b => le a b = true) := by
  intro l
  induction l with
  | nil => intro x _; simp [insertLe]
  | cons y ys ih =>
    intro x h
    rw [List.pairwise_cons] at h
    rw [insertLe]
    by_cases hle : le y x
    · simp only [hle, if_pos]
      rw [List.pairwise_cons]
      refine ⟨?_, ih x h.2⟩
      intro b hb
      have := (insertLe_perm le ys x).mem_iff.mp hb
      rcases List.mem_cons.mp this with rfl | hmem
      · exact hle
      · exact h.1 b hmem
    · simp only [hle, Bool.false_eq_true, if_false]
      rw [List.pairwise_cons]
      have hxy : le x y = true := by
        rcases htot x y with h1 | h1
        · exact h1
        · exact absurd h1 (by simpa using hle)
      refine ⟨?_, List.pairwise_cons.mpr h⟩
      intro b hb
      rcases List.mem_cons.mp hb with rfl | hmem
      · exact hxy
      · exact htrans x y b hxy (h.1 b hmem)

/-- The sort output is `le`-sorted. -/
theorem sortLe_pairwise {α : Type} (le : α → α → Bool)
    (htot : ∀ a b, le a b = true ∨ le b a = true)
    (htrans : ∀ a b c, le a b = true → le b c = true → le a c = true)
    (l : List α) : (sortLe le l).Pairwise (fun a b => le a b = true) := by
  suffices h : ∀ (l acc : List α), acc.Pairwise (fun a b => le a b = true) →
      (l.foldl (fun acc x => insertLe le x acc) acc).Pairwise
        (fun a b => le a b = true) by
    exact h l [] (by simp)
  intro l
  induction l with
  | nil => intro acc h; simpa using h
  | cons x xs ih =>
    intro acc h
    simp only [List.foldl_cons]
    exact ih (insertLe le x acc) (insertLe_pairwise le htot htrans acc x h)

/-- In a sorted list, the first element satisfying a predicate is `le` every
element satisfying it (given reflexivity of `le`). -/
theorem find?_sorted_min {α : Type} (le : α → α → Bool)
    (hrefl : ∀ a, le a a = true) :
    ∀ (l : List α) (p : α → Bool) (v : α), l.Pairwise (fun a b => le a b = true) →
      l.find? p = some v → ∀ u ∈ l, p u = true → le v u = true := by
  intro l
  induction l with
  | nil => intro p v _ h; simp [List.find?] at h
  | cons x xs ih =>
    intro p v hsort hfind u hu hpu
    rw [List.pairwise_cons] at hsort
    rw [List.find?] at hfind
    by_cases hpx : p x
    · rw [hpx] at hfind
      simp only [Option.some.injEq] at hfind
      rcases List.mem_cons.mp hu with h | hmem
      · rw [← hfind, h]; exact hrefl _
      · rw [← hfind]; exact hsort.1 u hmem
    · rw [Bool.not_eq_true] at hpx
      rw [hpx] at hfind
      rcases List.mem_cons.mp hu with rfl | hmem
      · exact absurd hpu (by simp [hpx])
      · exact ih p v hsort.2 hfind u hmem hpu


/-- A dropped suffix's head and tail, as absolute positions. -/
theorem drop_cons_inv (s : List Char) (pos : Nat) (c : Char) (rest : List Char)
    (h : s.drop pos = c :: rest) : s[pos]? = some c ∧ s.drop (pos + 1) = rest := by
  constructor
  · have h0 := List.getElem?_drop s pos 0
    rw [Nat.add_zero] at h0
    rw [← h0, h]
    simp
  · have h1 : s.drop (pos + 1) = (s.drop pos).drop 1 := by
      rw [List.drop_drop]
    rw [h1, h]
    simp

/-- A position past every character has an empty dropped suffix. -/
theorem drop_nil_of_getElem_none (s : List Char) (i : Nat) (h : s[i]? = none) :
    s.drop i = [] := by
  refine List.drop_eq_nil_of_le ?_
  exact List.getElem?_eq_none_iff.mp h

/-- Whitespace skipping never moves backwards. -/
theorem skipWs_ge (s : List Char) (i : Nat) : i ≤ skipWs s i :=
  Nat.le_add_right i (countWs (s.drop i))

/-- A marker match starts on the backslash of `\int`, ends after its start,
and ends within the text. -/
theorem matchIntAt_spec (s : List Char) (i e : Nat) (h : matchIntAt s i = some e) :
    i < e ∧ e ≤ s.length ∧ s[i]? = some '\\' := by
  rw [matchIntAt] at h
  by_cases hp : ['\\', 'i', 'n', 't'].isPrefixOf (s.drop i)
  · rw [if_pos hp] at h
    by_cases hu : s[skipWs s (i + 4)]? = some '_'
    · rw [if_pos hu] at h
      simp only [Option.some.injEq] at h
      obtain ⟨t, ht⟩ := List.isPrefixOf_iff_prefix.mp hp
      have hdi : (s.drop i)[0]? = some '\\' := by rw [← ht]; rfl
      have hi : s[i]? = some '\\' := by
        have h0 := List.getElem?_drop s i 0
        rw [Nat.add_zero] at h0
        rw [← h0, hdi]
      obtain ⟨hlt, _⟩ := List.getElem?_eq_some.mp hu
      have hge := skipWs_ge s (i + 4)
      exact ⟨by omega, by omega, hi⟩
    · rw [if_neg hu] at h; exact absurd h (by simp)
  · rw [if_neg hp] at h; exact absurd h (by simp)

/-- The position-by-position search only returns actual matches. -/
theorem findIntAux_spec (s : List Char) : ∀ (l : List Char) (i a e : Nat),
    findIntAux s l i = some (a, e) → matchIntAt s a = some e := by
  intro l
  induction l with
  | nil => intro i a e h; simp [findIntAux] at h
  | cons c rest ih =>
    intro i a e h
    rw [findIntAux] at h
    cases hmi : matchIntAt s i with
    | some e' =>
      rw [hmi] at h
      simp only [Option.some.injEq, Prod.mk.injEq] at h
      rw [← h.1, hmi, h.2]
    | none =>
      rw [hmi] at h
      simp only [] at h
      exact ih (i + 1) a e h

/-- The leftmost-search result is an actual match at its reported start. -/
theorem findIntMarker_spec (s : List Char) (a e : Nat)
    (h : findIntMarker s = some (a, e)) : matchIntAt s a = some e :=
  findIntAux_spec s s 0 a e h

/-- Unfolding: the brace scan at the end of the text. -/
theorem braceScanC_none (s : List Char) (pos cnt : Nat) (h : s[pos]? = none) :
    braceScanC s pos cnt = (pos, cnt) := by
  rw [braceScanC, drop_nil_of_getElem_none s pos h]
  rfl

/-- Unfolding: the brace scan at a present character. -/
theorem braceScanC_some (s : List Char) (pos cnt : Nat) (c : Char)
    (h : s[pos]? = some c) :
    braceScanC s pos cnt = if cnt = 0 then (pos, cnt)
      else braceScanC s (pos + 1) (if c = '{' then cnt + 1 else if c = '}' then cnt - 1 else cnt) := by
  obtain ⟨hlt, heq⟩ := List.getElem?_eq_some.mp h
  rw [braceScanC, List.drop_eq_getElem_cons hlt, heq, braceAux]
  rfl

/-- With a zero counter the brace scan stops immediately. -/
theorem braceScanC_cnt_zero (s : List Char) (q : Nat) : braceScanC s q 0 = (q, 0) := by
  cases h : s[q]? with
  | none => rw [braceScanC_none s q 0 h]
  | some c => rw [braceScanC_some s q 0 c h, if_pos rfl]

/-- A slice extended by one surviving character on the left. -/
theorem pySlice_cons (s : List Char) (pos p : Nat) (c : Char)
    (hc : s[pos]? = some c) (hp : pos + 1 ≤ p) :
    pySlice s pos p = c :: pySlice s (pos + 1) p := by
  obtain ⟨hlt, heq⟩ := List.getElem?_eq_some.mp hc
  rw [pySlice, pySlice, List.drop_eq_getElem_cons hlt, heq]
  have h1 : p - pos = (p - (pos + 1)) + 1 := by omega
  rw [h1, List.take_succ_cons]

/-- Element counting through a cons, with a propositional test. -/
theorem count_cons_val (b a : Char) (l : List Char) :
    (b :: l).count a = l.count a + (if b = a then 1 else 0) := by
  rw [List.count_cons]
  by_cases h : b = a
  · simp [h]
  · simp [h]

/-- The brace scan moves forward and maintains the balance invariant: the
final counter plus the closing braces consumed equals the initial counter
plus the opening braces consumed. -/
theorem braceScanC_spec (s : List Char) : ∀ (pos cnt : Nat),
    pos ≤ (braceScanC s pos cnt).fst ∧
    (braceScanC s pos cnt).snd +
      (pySlice s pos (braceScanC s pos cnt).fst).count '}' =
    cnt + (pySlice s pos (braceScanC s pos cnt).fst).count '{' := by
  suffices hm : ∀ (m pos cnt : Nat), s.length - pos ≤ m →
      pos ≤ (braceScanC s pos cnt).fst ∧
      (braceScanC s pos cnt).snd +
        (pySlice s pos (braceScanC s pos cnt).fst).count '}' =
      cnt + (pySlice s pos (braceScanC s pos cnt).fst).count '{' by
    intro pos cnt; exact hm (s.length - pos) pos cnt (le_refl _)
  intro m
  induction m with
  | zero =>
    intro pos cnt hle
    cases h : s[pos]? with
    | none =>
      rw [braceScanC_none s pos cnt h]
      simp [pySlice]
    | some c =>
      obtain ⟨hlt, _⟩ := List.getElem?_eq_some.mp h
      omega
  | succ m ih =>
    intro pos cnt hle
    cases h : s[pos]? with
    | none =>
      rw [braceScanC_none s pos cnt h]
      simp [pySlice]
    | some c =>
      rw [braceScanC_some s pos cnt c h]
      by_cases hz : cnt = 0
      · rw [if_pos hz]
        simp [pySlice]
      · rw [if_neg hz]
        obtain ⟨hlt, _⟩ := List.getElem?_eq_some.mp h
        set cnt2 := (if c = '{' then cnt + 1 else if c = '}' then cnt - 1 else cnt) with hcnt2
        obtain ⟨ihge, ihbal⟩ := ih (pos + 1) cnt2 (by omega)
        refine ⟨by omega, ?_⟩
        rw [pySlice_cons s pos _ c h (by omega)]
        rw [count_cons_val, count_cons_val]
        by_cases hc1 : c = '{'
        · have hne : ¬(c = '}') := by simp [hc1]
          rw [if_pos hc1, if_neg hne]
          have hv : cnt2 = cnt + 1 := by rw [hcnt2, if_pos hc1]
          omega
        · by_cases hc2 : c = '}'
          · rw [if_neg hc1, if_pos hc2]
            have hv : cnt2 = cnt - 1 := by rw [hcnt2, if_neg hc1, if_pos hc2]
            omega
          · rw [if_neg hc1, if_neg hc2]
            have hv : cnt2 = cnt := by rw [hcnt2, if_neg hc1, if_neg hc2]
            omega

/-- When the scan stops because the counter returned to zero, the character
just consumed was a closing brace. -/
theorem braceScanC_zero_last (s : List Char) : ∀ (pos cnt p : Nat), cnt ≠ 0 →
    braceScanC s pos cnt = (p, 0) → pos < p ∧ s[p - 1]? = some '}' := by
  suffices hm : ∀ (m pos cnt p : Nat), s.length - pos ≤ m → cnt ≠ 0 →
      braceScanC s pos cnt = (p, 0) → pos < p ∧ s[p - 1]? = some '}' by
    intro pos cnt p; exact hm (s.length - pos) pos cnt p (le_refl _)
  intro m
  induction m with
  | zero =>
    intro pos cnt p hle hcnt heq
    cases h : s[pos]? with
    | none =>
      rw [braceScanC_none s pos cnt h] at heq
      cases heq
      exact absurd rfl hcnt
    | some c =>
      obtain ⟨hlt, _⟩ := List.getElem?_eq_some.mp h
      omega
  | succ m ih =>
    intro pos cnt p hle hcnt heq
    cases h : s[pos]? with
    | none =>
      rw [braceScanC_none s pos cnt h] at heq
      cases heq
      exact absurd rfl hcnt
    | some c =>
      rw [braceScanC_some s pos cnt c h, if_neg hcnt] at heq
      obtain ⟨hlt, _⟩ := List.getElem?_eq_some.mp h
      by_cases hz' : (if c = '{' then cnt + 1 else if c = '}' then cnt - 1 else cnt) = 0
      · have hcz : c = '}' := by
          by_cases h1 : c = '{'
          · rw [if_pos h1] at hz'; omega
          · by_cases h2 : c = '}'
            · exact h2
            · rw [if_neg h1, if_neg h2] at hz'; exact absurd hz' hcnt
        rw [hz', braceScanC_cnt_zero] at heq
        cases heq
        refine ⟨by omega, ?_⟩
        simpa [hcz] using h
      · obtain ⟨hlt2, hlast⟩ := ih (pos + 1) _ p (by omega) hz' heq
        exact ⟨by omega, hlast⟩

/-- A slice extended by one surviving character on the right. -/
theorem pySlice_snoc (s : List Char) (pos p : Nat) (c : Char)
    (hc : s[p - 1]? = some c) (hge : pos + 1 ≤ p) :
    pySlice s pos p = pySlice s pos (p - 1) ++ [c] := by
  rw [pySlice, pySlice]
  have h1 : p - pos = (p - 1 - pos) + 1 := by omega
  rw [h1, List.take_succ]
  congr 1
  rw [List.getElem?_drop]
  have h2 : pos + (p - 1 - pos) = p - 1 := by omega
  rw [h2, hc]
  rfl

/-- Unfolding: differential search past the end of the text. -/
theorem findDMatch_none0 (rem : List Char) (j : Nat) (h0 : rem[j]? = none) :
    findDMatch rem j = none := by
  rw [findDMatch, drop_nil_of_getElem_none rem j h0]
  rfl

/-- Unfolding: differential search with no following character. -/
theorem findDMatch_none1 (rem : List Char) (j : Nat) (c0 : Char)
    (h0 : rem[j]? = some c0) (h1 : rem[j + 1]? = none) :
    findDMatch rem j = none := by
  obtain ⟨hlt, heq⟩ := List.getElem?_eq_some.mp h0
  rw [findDMatch, List.drop_eq_getElem_cons hlt, heq,
    drop_nil_of_getElem_none rem (j + 1) h1]
  rfl

/-- Unfolding: differential search at two present characters. -/
theorem findDMatch_cons_eq (rem : List Char) (j : Nat) (c0 c1 : Char)
    (h0 : rem[j]? = some c0) (h1 : rem[j + 1]? = some c1) :
    findDMatch rem j = if c0 = 'd' ∧ c1.isAlpha then some (j, c1)
      else findDMatch rem (j + 1) := by
  obtain ⟨hlt0, heq0⟩ := List.getElem?_eq_some.mp h0
  obtain ⟨hlt1, heq1⟩ := List.getElem?_eq_some.mp h1
  simp only [findDMatch]
  rw [List.drop_eq_getElem_cons hlt0, heq0, List.drop_eq_getElem_cons hlt1, heq1,
    findDAux]

/-- A differential match carries the letter found just after its `d`. -/
theorem findDMatch_spec (rem : List Char) : ∀ (j k : Nat) (c : Char),
    findDMatch rem j = some (k, c) → rem[k + 1]? = some c := by
  suffices hm : ∀ (m j k : Nat) (c : Char), rem.length - j ≤ m →
      findDMatch rem j = some (k, c) → rem[k + 1]? = some c by
    intro j k c; exact hm (rem.length - j) j k c (le_refl _)
  intro m
  induction m with
  | zero =>
    intro j k c hle h
    cases h0 : rem[j]? with
    | none => rw [findDMatch_none0 rem j h0] at h; exact absurd h (by simp)
    | some c0 =>
      obtain ⟨hlt, _⟩ := List.getElem?_eq_some.mp h0
      omega
  | succ m ih =>
    intro j k c hle h
    cases h0 : rem[j]? with
    | none => rw [findDMatch_none0 rem j h0] at h; exact absurd h (by simp)
    | some c0 =>
      cases h1 : rem[j + 1]? with
      | none => rw [findDMatch_none1 rem j c0 h0 h1] at h; exact absurd h (by simp)
      | some c1 =>
        rw [findDMatch_cons_eq rem j c0 c1 h0 h1] at h
        by_cases hc : c0 = 'd' ∧ c1.isAlpha
        · rw [if_pos hc] at h
          simp only [Option.some.injEq, Prod.mk.injEq] at h
          rw [← h.1, h1, h.2]
        · rw [if_neg hc] at h
          obtain ⟨hlt, _⟩ := List.getElem?_eq_some.mp h0
          exact ih (j + 1) k c (by omega) h

/-- The position after a parsed bound lies strictly beyond the bound's
start. -/
theorem parseBound_snd_ge (s : List Char) (pos : Nat) :
    pos + 1 ≤ (parseBound s pos).snd := by
  rw [parseBound]
  by_cases h : s[pos]? = some '{'
  · rw [if_pos h]
    exact (braceScanC_spec s (pos + 1) 1).1
  · rw [if_neg h]

/-- A successful resolution's rendering comes from the engine's printer. -/
theorem integAttemptTry_spec {E : Type} (eng : Engine E) (ctx : Context)
    (var : Char) (il lb ub : List Char) (res : List Char)
    (h : integAttemptTry eng ctx var il lb ub = .ok res) :
    ∃ r : E, res = (eng.reprStr r).data := by
  rw [integAttemptTry] at h
  cases h1 : eng.latexToSympyStr (String.mk il) with
  | error e => rw [h1] at h; simp at h
  | ok istr =>
    rw [h1] at h
    simp only [] at h
    cases h2 : eng.sympify istr with
    | error e => rw [h2] at h; simp at h
    | ok i0 =>
      rw [h2] at h
      simp only [] at h
      by_cases hsd : (integrandSubsDict eng ctx var).isEmpty
      · rw [if_pos hsd] at h
        simp only [] at h
        cases h4 : eng.sympify (String.mk (resolveBoundVal ctx lb)) with
        | error e => rw [h4] at h; simp at h
        | ok lo =>
          rw [h4] at h
          simp only [] at h
          cases h5 : eng.sympify (String.mk (resolveBoundVal ctx ub)) with
          | error e => rw [h5] at h; simp at h
          | ok hi =>
            rw [h5] at h
            simp only [] at h
            cases h6 : eng.integrateDef i0 (String.mk [var]) lo hi with
            | error e => rw [h6] at h; simp at h
            | ok r =>
              rw [h6] at h
              simp only [Except.ok.injEq] at h
              exact ⟨eng.numApprox r, h.symm⟩
      · rw [if_neg hsd] at h
        cases h3 : eng.subs i0 (integrandSubsDict eng ctx var) with
        | error e => rw [h3] at h; simp at h
        | ok i1 =>
          rw [h3] at h
          simp only [] at h
          cases h4 : eng.sympify (String.mk (resolveBoundVal ctx lb)) with
          | error e => rw [h4] at h; simp at h
          | ok lo =>
            rw [h4] at h
            simp only [] at h
            cases h5 : eng.sympify (String.mk (resolveBoundVal ctx ub)) with
            | error e => rw [h5] at h; simp at h
            | ok hi =>
              rw [h5] at h
              simp only [] at h
              cases h6 : eng.integrateDef i1 (String.mk [var]) lo hi with
              | error e => rw [h6] at h; simp at h
              | ok r =>
                rw [h6] at h
                simp only [Except.ok.injEq] at h
                exact ⟨eng.numApprox r, h.symm⟩

/-- A successful attempt ends after the marker, within the text, and splices
in an engine rendering. -/
theorem integAttempt_spec {E : Type} (eng : Engine E) (ctx : Context)
    (s : List Char) (mEnd iEnd : Nat) (res : List Char)
    (h : integAttempt eng ctx s mEnd = some (iEnd, res)) :
    mEnd ≤ iEnd ∧ iEnd ≤ s.length ∧ ∃ r : E, res = (eng.reprStr r).data := by
  rw [integAttempt] at h
  by_cases hcar : s[(parseBound s mEnd).snd]? = some '^'
  · rw [if_pos hcar] at h
    cases hd : findDMatch (s.drop (parseBound s ((parseBound s mEnd).snd + 1)).snd) 0 with
    | none => rw [hd] at h; simp at h
    | some jc =>
      rw [hd] at h
      obtain ⟨j, varC⟩ := jc
      simp only [] at h
      cases ht : integAttemptTry eng ctx varC
          (trimWs (replaceSub ['\\', 'r', 'i', 'g', 'h', 't', ')'] [')']
            (replaceSub ['\\', 'l', 'e', 'f', 't', '('] ['(']
              (trimWs (pySlice s (parseBound s ((parseBound s mEnd).snd + 1)).snd
                ((parseBound s ((parseBound s mEnd).snd + 1)).snd + j))))))
          (parseBound s mEnd).fst (parseBound s ((parseBound s mEnd).snd + 1)).fst with
      | error e => rw [ht] at h; simp at h
      | ok res' =>
        rw [ht] at h
        simp only [Option.some.injEq, Prod.mk.injEq] at h
        have hj := findDMatch_spec _ _ _ _ hd
        obtain ⟨hjlt, _⟩ := List.getElem?_eq_some.mp hj
        rw [List.length_drop] at hjlt
        have h1 := parseBound_snd_ge s mEnd
        have h2 := parseBound_snd_ge s ((parseBound s mEnd).snd + 1)
        obtain ⟨r, hr⟩ := integAttemptTry_spec eng ctx varC _ _ _ res' ht
        refine ⟨by omega, by omega, ⟨r, ?_⟩⟩
        rw [← h.2, hr]
  · rw [if_neg hcar] at h
    exact absurd h (by simp)

/-- Splicing a backslash-free replacement over a span that starts with a
backslash strictly decreases the backslash count. -/
theorem count_splice_lt (s res : List Char) (a b : Nat) (hab : a < b)
    (_hb : b ≤ s.length) (ha : s[a]? = some '\\') (hres : res.count '\\' = 0) :
    (s.take a ++ res ++ s.drop b).count '\\' < s.count '\\' := by
  have hsplit : s = s.take a ++ (pySlice s a b ++ s.drop b) := by
    rw [pySlice]
    have h1 : (s.drop a).take (b - a) ++ (s.drop a).drop (b - a) = s.drop a :=
      List.take_append_drop _ _
    have h2 : (s.drop a).drop (b - a) = s.drop b := by
      rw [List.drop_drop]
      congr 1
      omega
    rw [h2] at h1
    rw [h1, List.take_append_drop]
  have hmid : 0 < (pySlice s a b).count '\\' := by
    have hmem : '\\' ∈ pySlice s a b := by
      have h0 : (pySlice s a b)[0]? = some '\\' := by
        rw [pySlice, List.getElem?_take, if_pos (by omega), List.getElem?_drop,
          Nat.add_zero, ha]
      obtain ⟨hlt, heq⟩ := List.getElem?_eq_some.mp h0
      rw [← heq]
      exact List.getElem_mem hlt
    exact List.count_pos_iff.mpr hmem
  have hcount : s.count '\\' =
      (s.take a).count '\\' + ((pySlice s a b).count '\\' + (s.drop b).count '\\') := by
    conv_lhs => rw [hsplit]
    rw [List.count_append, List.count_append]
  rw [List.count_append, List.count_append, hres]
  omega

/-- Unfolding: one loop iteration with remaining fuel. -/
theorem integLoop_succ {E : Type} (eng : Engine E) (ctx : Context) (fuel : Nat)
    (s : List Char) :
    integLoop eng ctx (fuel + 1) s =
      match integStep eng ctx s with
      | .broke out => some out
      | .again s' => integLoop eng ctx fuel s' := rfl

/-- When no engine rendering contains a backslash, every `.again` iteration
strictly decreases the number of backslashes in the text. -/
theorem integStep_again_count {E : Type} (eng : Engine E) (ctx : Context)
    (noBS : ∀ r : E, (eng.reprStr r).data.count '\\' = 0) (s s' : List Char)
    (h : integStep eng ctx s = .again s') : s'.count '\\' < s.count '\\' := by
  rw [integStep] at h
  cases hf : findIntMarker s with
  | none => rw [hf] at h; exact absurd h (by simp)
  | some ae =>
    rw [hf] at h
    obtain ⟨a, e⟩ := ae
    simp only [] at h
    cases hi : integAttempt eng ctx s e with
    | none => rw [hi] at h; exact absurd h (by simp)
    | some ir =>
      rw [hi] at h
      obtain ⟨iEnd, res⟩ := ir
      simp only [] at h
      simp only [StepOut.again.injEq] at h
      obtain ⟨hma, hme, hback⟩ := matchIntAt_spec s a e (findIntMarker_spec s a e hf)
      obtain ⟨h1, h2, r, hr⟩ := integAttempt_spec eng ctx s e iEnd res hi
      rw [← h]
      exact count_splice_lt s res a iEnd (by omega) h2 hback (by rw [hr]; exact noBS r)

/-- When no engine rendering contains a backslash, the rewrite loop finishes
(reaches one of its `break`s) within backslash-count-many iterations. -/
theorem integLoop_terminates {E : Type} (eng : Engine E) (ctx : Context)
    (noBS : ∀ r : E, (eng.reprStr r).data.count '\\' = 0) :
    ∀ (fuel : Nat) (s : List Char), s.count '\\' < fuel →
      (integLoop eng ctx fuel s).isSome = true := by
  intro fuel
  induction fuel with
  | zero => intro s h; omega
  | succ fuel ih =>
    intro s h
    rw [integLoop_succ]
    cases hs : integStep eng ctx s with
    | broke out => simp
    | again s' =>
      have := integStep_again_count eng ctx noBS s s' hs
      exact ih s' (by omega)

/-- The toy engine's symbolic equality is reflexive (sympy `x == x`). -/
theorem teeq_refl (x : TExpr) : teeq x x = true := by
  rw [teeq]
  cases h : tval x with
  | some v => simp
  | none => simp

/-- Sorting neither adds nor removes elements. -/
theorem mem_sortLe {α : Type} (le : α → α → Bool) (l : List α) (x : α) :
    x ∈ sortLe le l ↔ x ∈ l := (sortLe_perm le l).mem_iff

/-- Every early return of the variable-selection phase carries the input
context unchanged. -/
theorem dropdownVarChoice_inr_context {E : Type} (eng : Engine E)
    (input : CellFunctionInput) (equation : E) (early : CellFunctionResult)
    (h : dropdownVarChoice eng input equation = .inr early) :
    early.new_context = input.context := by
  have hfall : ∀ e', fallbackVarChoice eng input equation = .inr e' →
      e'.new_context = input.context := by
    intro e' h'
    rw [fallbackVarChoice] at h'
    by_cases h1 : (eng.freeSymbols equation).isEmpty
    · rw [if_pos h1] at h'
      cases h'
      rfl
    · rw [if_neg h1] at h'
      cases h2 : pickFallbackVar eng input equation with
      | none => rw [h2] at h'; cases h'; rfl
      | some v => rw [h2] at h'; cases h'
  rw [dropdownVarChoice] at h
  cases hs : input.get_dropdown_selection "Solve for" with
  | none => rw [hs] at h; exact hfall early h
  | some name =>
    rw [hs] at h
    simp only [] at h
    by_cases h1 : name == ""
    · rw [if_pos h1] at h; exact hfall early h
    · rw [if_neg h1] at h
      by_cases h2 : (eng.freeSymbols equation).contains name
      · rw [if_pos h2] at h; cases h
      · rw [if_neg h2] at h; cases h; rfl

/-- The formatting tail either keeps the context or supersedes exactly the
solved variable. -/
theorem solve_simple_finish_context {E : Type} (eng : Engine E)
    (input : CellFunctionInput) (var : String) (sols : List E)
    (r : CellFunctionResult) (h : solve_simple_finish eng input var sols = .ok r) :
    r.new_context = input.context ∨
      ∃ strs, r.new_context =
        ⟨(input.context.vars.filter (fun v => v.name ≠ var)) ++
          [Variable.create_analytical var strs]⟩ := by
  rw [solve_simple_finish] at h
  by_cases h1 : sols.isEmpty
  · simp only [h1, Bool.not_true, Bool.false_eq_true, if_false] at h
    cases h
    left
    rfl
  · simp only [h1, Bool.not_false, if_true] at h
    cases h2 : mapME (fun sol =>
        match eng.toLatex (eng.mkEq var sol) with
        | .error e => .error e
        | .ok l => .ok (l, eng.reprStr sol)) sols with
    | error e => rw [h2] at h; cases h
    | ok pairs =>
      rw [h2] at h
      cases h
      right
      exact ⟨pairs.map (fun p => p.snd), rfl⟩

/-- The solving body's replacement context is the input context or the input
context with the solved variable superseded. -/
theorem solve_simple_body_context {E : Type} (eng : Engine E)
    (input : CellFunctionInput) (r : CellFunctionResult)
    (h : solve_simple_body eng input = .ok r) :
    r.new_context = input.context ∨
      ∃ var strs, r.new_context =
        ⟨(input.context.vars.filter (fun v => v.name ≠ var)) ++
          [Variable.create_analytical var strs]⟩ := by
  rw [solve_simple_body] at h
  cases h0 : eng.fromLatex (pyStrip input.latex) with
  | error e => rw [h0] at h; cases h
  | ok expr =>
    rw [h0] at h
    simp only [] at h
    by_cases h1 : eng.hasLhsRhs expr
    · simp only [h1, Bool.not_true, Bool.false_eq_true, if_false] at h
      cases h2 : dropdownVarChoice eng input expr with
      | inr early =>
        rw [h2] at h
        cases h
        left
        exact dropdownVarChoice_inr_context eng input expr r h2
      | inl var =>
        rw [h2] at h
        simp only [] at h
        by_cases h3 : (input.context.vars.filter (fun cv =>
            cv.name ≠ var ∧ (eng.freeSymbols expr).contains cv.name)) = []
        · have hcond : ¬((input.context.vars.filter (fun cv =>
              cv.name ≠ var ∧ (eng.freeSymbols expr).contains cv.name)) ≠ []) :=
            fun hne => hne h3
          rw [if_neg hcond] at h
          cases h4 : eng.solveE expr var with
          | error e => rw [h4] at h; simp at h
          | ok sols =>
            rw [h4] at h
            simp only [] at h
            rcases solve_simple_finish_context eng input var _ r h with hl | ⟨strs, hr⟩
            · left; exact hl
            · right; exact ⟨var, strs, hr⟩
        · rw [if_pos h3] at h
          cases h5 : solve_simple_solutionLists eng expr var
              (input.context.vars.filter (fun cv =>
                cv.name ≠ var ∧ (eng.freeSymbols expr).contains cv.name)) with
          | error e => rw [h5] at h; simp at h
          | ok lists =>
            rw [h5] at h
            simp only [] at h
            rcases solve_simple_finish_context eng input var _ r h with hl | ⟨strs, hr⟩
            · left; exact hl
            · right; exact ⟨var, strs, hr⟩
    · simp only [h1, Bool.not_false, if_true] at h
      cases h
      left
      rfl

/-- C10: on success as well as on failure, `simple_simplify`, `check_equal`
and `solve_ode` return the input context unchanged; among the handlers only
`solve_simple` ever produces a different context, and then only by removing
any existing entry for the solved variable and appending a fresh analytical
entry for it. -/
theorem context_frame : ∀ (E : Type) (eng : Engine E) (input : CellFunctionInput),
    (simple_simplify eng input).new_context = input.context ∧
    (check_equal eng input).new_context = input.context ∧
    (solve_ode eng input).new_context = input.context ∧
    ((solve_simple eng input).new_context = input.context ∨
      ∃ var strs, (solve_simple eng input).new_context =
        ⟨(input.context.vars.filter (fun v => v.name ≠ var)) ++
          [Variable.create_analytical var strs]⟩) ∧
    (∃ inp : CellFunctionInput, (solve_simple toyEngine inp).new_context ≠ inp.context) := by
  intro E eng input
  refine ⟨?_, ?_, ?_, ?_, ⟨c3In, by decide⟩⟩
  · rw [simple_simplify]
    cases h : simple_simplify_raw eng input <;> rfl
  · rw [check_equal]
    cases h : check_equal_visible eng input <;> rfl
  · rw [solve_ode]
    cases h : solve_ode_visible eng input <;> rfl
  · rw [solve_simple]
    cases h : solve_simple_body eng input with
    | error e => left; rfl
    | ok r => exact solve_simple_body_context eng input r h

/-- C1 (amended): an exception that escapes to a handler's top-level
`except` is absorbed into exactly one visible error line, and the input
context is returned unchanged.  (`solve_ode` additionally absorbs per-tuple
`dsolve` failures into one line each before reaching that handler — see the
accompanying counterexample.) -/
theorem execute_failure_policy : ∀ (E : Type) (eng : Engine E)
    (input : CellFunctionInput) (m : String),
    (solve_simple_body eng input = .error m →
      (solve_simple eng input).visible_solutions = ["Error solving equation: " ++ m] ∧
      (solve_simple eng input).new_context = input.context) ∧
    (check_equal_visible eng input = .error m →
      (check_equal eng input).visible_solutions = ["Error checking equality: " ++ m] ∧
      (check_equal eng input).new_context = input.context) ∧
    (solve_ode_visible eng input = .error m →
      (solve_ode eng input).visible_solutions =
        ["Error solving differential equation: " ++ m] ∧
      (solve_ode eng input).new_context = input.context) ∧
    (simple_simplify_raw eng input = .error m →
      (simple_simplify eng input).visible_solutions =
        ["Error simplifying expression: " ++ m] ∧
      (simple_simplify eng input).new_context = input.context) := by
  intro E eng input m
  refine ⟨fun h => ?_, fun h => ?_, fun h => ?_, fun h => ?_⟩
  · rw [solve_simple, h]; exact ⟨rfl, rfl⟩
  · rw [check_equal, h]; exact ⟨rfl, rfl⟩
  · rw [solve_ode, h]; exact ⟨rfl, rfl⟩
  · rw [simple_simplify, h]; exact ⟨rfl, rfl⟩

/-- C1 witness: an unparsable cell makes every handler produce its single
error line with the context unchanged. -/
theorem execute_failure_policy_witness :
    ((solve_simple toyEngine inputBad).visible_solutions =
      ["Error solving equation: " ++ "ParseError: zzz"] ∧
      (solve_simple toyEngine inputBad).new_context = inputBad.context) ∧
    ((check_equal toyEngine inputBad).visible_solutions =
      ["Error checking equality: " ++ "ParseError: zzz"] ∧
      (check_equal toyEngine inputBad).new_context = inputBad.context) ∧
    ((solve_ode toyEngine inputBad).visible_solutions =
      ["Error solving differential equation: " ++ "ParseError: zzz"] ∧
      (solve_ode toyEngine inputBad).new_context = inputBad.context) ∧
    ((simple_simplify toyEngine inputBad).visible_solutions =
      ["Error simplifying expression: " ++ "ParseError: zzz"] ∧
      (simple_simplify toyEngine inputBad).new_context = inputBad.context) :=
  ⟨(execute_failure_policy TExpr toyEngine inputBad "ParseError: zzz").1 rfl,
   (execute_failure_policy TExpr toyEngine inputBad "ParseError: zzz").2.1 rfl,
   (execute_failure_policy TExpr toyEngine inputBad "ParseError: zzz").2.2.1 rfl,
   (execute_failure_policy TExpr toyEngine inputBad "ParseError: zzz").2.2.2 rfl⟩

/-- C1 counterexample: in `solve_ode`, an engine exception raised by
`dsolve` (here on each of the two substitution tuples of `{a: [1, 2]}`)
does not produce exactly one visible output line — the handler returns two
error lines.  The context is still the unchanged input. -/
theorem ode_error_multiline :
    (solve_ode toyEngine odeIn).visible_solutions =
      ["Could not solve ODE: " ++ "dboom", "Could not solve ODE: " ++ "dboom"] ∧
    (solve_ode toyEngine odeIn).visible_solutions.length ≠ 1 ∧
    (solve_ode toyEngine odeIn).new_context = odeIn.context ∧
    toyEngine.dsolveE (TExpr.eqn (TExpr.deriv (TExpr.sym "f")) (TExpr.num 1))
      (TExpr.sym "f") = .error "dboom" := by
  exact ⟨by decide, by decide, by decide, rfl⟩

/-- C2 (amended): every handler runs one engine operation per element of the
Cartesian product of its substitutable variables' value lists — ∏nᵢ
invocations.  `simple_simplify` (and `check_equal`) count as substitutable
exactly the free context variables with non-empty value lists, and run the
operation exactly once when there are none; `solve_simple` counts every free
context variable other than the target, with no emptiness check, so its
count ∏nᵢ can be zero (see the counterexample). -/
theorem substitution_invocation_counts : ∀ (E : Type) (eng : Engine E),
    (∀ ls : List (List String), (product ls).length = (ls.map List.length).prod) ∧
    (∀ (input : CellFunctionInput) (expr : E) (raw : List String),
      eng.fromLatex (pyStrip input.latex) = .ok expr →
      simple_simplify_raw eng input = .ok raw →
      raw.length = ((substitutableVars eng input.context expr).map
        (fun v => v.values.length)).prod) ∧
    (∀ (expr : E) (cvars : List Variable) (pairs : List (E × E)),
      check_equal_pairs eng expr cvars = .ok pairs →
      pairs.length = (cvars.map (fun v => v.values.length)).prod) ∧
    (∀ (equation : E) (var : String) (cvars : List Variable) (lists : List (List E)),
      solve_simple_solutionLists eng equation var cvars = .ok lists →
      lists.length = (cvars.map (fun v => v.values.length)).prod) := by
  intro E eng
  refine ⟨product_length, ?_, ?_, ?_⟩
  · intro input expr raw hL hraw
    rw [simple_simplify_raw, hL] at hraw
    simp only [] at hraw
    by_cases hc : substitutableVars eng input.context expr ≠ []
    · rw [if_pos hc] at hraw
      rw [mapME_ok_length _ _ _ hraw, product_length, List.map_map]
      rfl
    · rw [if_neg hc] at hraw
      have hc' : substitutableVars eng input.context expr = [] := not_not.mp hc
      rw [hc']
      simp only [List.map_nil, List.prod_nil]
      cases h1 : eng.simplifyE expr with
      | error e => rw [h1] at hraw; simp at hraw
      | ok simplified =>
        rw [h1] at hraw
        simp only [] at hraw
        cases h2 : eng.toLatex simplified with
        | error e => rw [h2] at hraw; simp at hraw
        | ok l =>
          rw [h2] at hraw
          simp only [Except.ok.injEq] at hraw
          rw [← hraw]
          rfl
  · intro expr cvars pairs h
    rw [check_equal_pairs] at h
    rw [mapME_ok_length _ _ _ h, product_length, List.map_map]
    rfl
  · intro equation var cvars lists h
    rw [solve_simple_solutionLists] at h
    rw [mapME_ok_length _ _ _ h, product_length, List.map_map]
    rfl

/-- C2 witness: simplifying `y + 0` under `{y: [1, 2]}` runs the engine's
simplify once per value, producing a raw list of length 2 = ∏nᵢ. -/
theorem substitution_invocation_counts_witness :
    (["1", "2"] : List String).length =
      ((substitutableVars toyEngine c2wIn.context
        (TExpr.add (TExpr.sym "y") (TExpr.num 0))).map
          (fun v => v.values.length)).prod :=
  (substitution_invocation_counts TExpr toyEngine).2.1 c2wIn
    (TExpr.add (TExpr.sym "y") (TExpr.num 0)) ["1", "2"] rfl rfl

/-- C2 counterexample: solving `x = a` under `{a: []}` — `a` appears free
with an EMPTY value list, so by the claim's definition there are zero
substitutable variables and the solve must run exactly once, unsubstituted;
that single invocation would return the solution `a` (third conjunct).  The
handler instead enumerates the empty Cartesian product — zero invocations —
and reports that no solution was found. -/
theorem solve_skips_empty_valued :
    solve_simple toyEngine c2cIn = ⟨["No solution found for x"], c2cIn.context⟩ ∧
    substitutableVars toyEngine c2cIn.context
      (TExpr.eqn (TExpr.sym "x") (TExpr.sym "a")) = [] ∧
    toyEngine.solveE (TExpr.eqn (TExpr.sym "x") (TExpr.sym "a")) "x" =
      .ok [TExpr.sym "a"] :=
  ⟨by decide, by decide, rfl⟩

/-- C3 (amended): `simple_simplify` deduplicates its rendered outputs keyed
by string, keeping first occurrences in first-seen order (no duplicates, a
sublist of the raw outputs, same membership); `solve_simple`, by contrast,
deduplicates **before** rendering, in a set keyed by the engine's symbolic
equality `eeq` (never two `eeq`-equal members; every solution represented by
an `eeq`-equal member), so solutions with distinct canonical strings can
collapse (see the counterexample). -/
theorem dedup_policy : ∀ (E : Type) (eng : Engine E),
    (∀ (input : CellFunctionInput) (raw : List String),
      simple_simplify_raw eng input = .ok raw →
      (simple_simplify eng input).visible_solutions = dedupFirstSeen raw) ∧
    (∀ l : List String, (dedupFirstSeen l).Nodup ∧ (dedupFirstSeen l).Sublist l ∧
      ∀ x, x ∈ dedupFirstSeen l ↔ x ∈ l) ∧
    ((∀ x : E, eng.eeq x x = true) → ∀ xs : List E,
      (setAddAll eng.eeq [] xs).Pairwise (fun a b => eng.eeq a b = false) ∧
      ∀ x ∈ xs, ∃ y ∈ setAddAll eng.eeq [] xs, eng.eeq y x = true) := by
  intro E eng
  refine ⟨?_, ?_, ?_⟩
  · intro input raw h
    rw [simple_simplify, h]
  · intro l
    exact ⟨dedupFirstSeen_nodup l, dedupFirstSeen_sublist l,
      fun x => ⟨mem_of_mem_dedupFirstSeen l x, mem_dedupFirstSeen_of_mem l x⟩⟩
  · intro hrefl xs
    exact ⟨setAddAll_pairwise eng.eeq xs [] (by simp),
      fun x hx => setAddAll_covers eng.eeq hrefl xs [] x hx⟩

/-- C3 witness: the simplify handler's visible output is exactly the
first-seen deduplication of its raw outputs, and a set fed two
symbolically-equal values keeps no `eeq`-duplicates. -/
theorem dedup_policy_witness :
    (simple_simplify toyEngine c2wIn).visible_solutions = dedupFirstSeen ["1", "2"] ∧
    (setAddAll toyEngine.eeq [] [TExpr.num 1, TExpr.fnum 1]).Pairwise
      (fun a b => toyEngine.eeq a b = false) :=
  ⟨(dedup_policy TExpr toyEngine).1 c2wIn ["1", "2"] rfl,
   ((dedup_policy TExpr toyEngine).2.2 teeq_refl [TExpr.num 1, TExpr.fnum 1]).1⟩

/-- C3 counterexample: solving `x = a` under `{a: [1, 1.0]}` produces two
solve invocations returning `Integer(1)` and `Float(1.0)` — distinct
canonical strings `1` and `1.00000000000000` (third conjunct) — yet only one
visible output and one stored solution string survive, because
`solve_simple`'s set deduplicates by symbolic value, not by canonical string
form. -/
theorem solve_dedup_by_object :
    solve_simple toyEngine c3In =
      ⟨["x = 1"], ⟨[⟨"a", ["1", "1.0"], VarKind.analytical⟩,
        Variable.create_analytical "x" ["1"]]⟩⟩ ∧
    solve_simple_solutionLists toyEngine (TExpr.eqn (TExpr.sym "x") (TExpr.sym "a"))
      "x" [⟨"a", ["1", "1.0"], VarKind.analytical⟩] =
        .ok [[TExpr.num 1], [TExpr.fnum 1]] ∧
    treprStr (TExpr.num 1) ≠ treprStr (TExpr.fnum 1) ∧
    toyEngine.eeq (TExpr.num 1) (TExpr.fnum 1) = true :=
  ⟨by decide, rfl, by decide, by decide⟩

/-- C5: with no dropdown selection, `solve_simple` solves for the
lexicographically smallest free variable absent from the context (first
conjunct: the fallback pick is free, absent from the context, and
`strLe`-minimal among such; second: it is the variable the handler then
uses); a non-empty selection naming a free variable overrides the fallback
(third); and when no selection is given and every free variable is in the
context, the handler reports that all variables are already defined, with
the context unchanged and no solve attempted (fourth — the result holds for
every engine, in particular regardless of `solveE`). -/
theorem solve_variable_choice : ∀ (E : Type) (eng : Engine E)
    (input : CellFunctionInput) (equation : E),
    (∀ v, pickFallbackVar eng input equation = some v →
      v ∈ eng.freeSymbols equation ∧
      ¬ v ∈ input.context.vars.map Variable.name ∧
      ∀ u ∈ eng.freeSymbols equation,
        ¬ u ∈ input.context.vars.map Variable.name → strLe v u = true) ∧
    (∀ v, input.get_dropdown_selection "Solve for" = none →
      pickFallbackVar eng input equation = some v →
      dropdownVarChoice eng input equation = .inl v) ∧
    (∀ sel, input.get_dropdown_selection "Solve for" = some sel → sel ≠ "" →
      (eng.freeSymbols equation).contains sel = true →
      dropdownVarChoice eng input equation = .inl sel) ∧
    (∀ expr, eng.fromLatex (pyStrip input.latex) = .ok expr →
      eng.hasLhsRhs expr = true →
      input.get_dropdown_selection "Solve for" = none →
      eng.freeSymbols expr ≠ [] →
      (∀ u ∈ eng.freeSymbols expr, u ∈ input.context.vars.map Variable.name) →
      solve_simple eng input =
        ⟨["All variables already defined in context"], input.context⟩) := by
  intro E eng input equation
  have htot : ∀ a b : String, strLe a b = true ∨ strLe b a = true :=
    fun a b => lexLe_total a.data b.data
  have htrans : ∀ a b c : String, strLe a b = true → strLe b c = true →
      strLe a c = true :=
    fun a b c => lexLe_trans a.data b.data c.data
  have hrefl : ∀ a : String, strLe a a = true := fun a => lexLe_refl a.data
  refine ⟨?_, ?_, ?_, ?_⟩
  · intro v hp
    rw [pickFallbackVar] at hp
    have hmem : v ∈ sortedStr (eng.freeSymbols equation) :=
      List.mem_of_find?_eq_some hp
    have hpv := List.find?_some hp
    simp only [Bool.not_eq_true'] at hpv
    refine ⟨(mem_sortLe strLe _ v).mp hmem, ?_, ?_⟩
    · intro hc
      have hc2 : (List.map (fun v => v.name) input.context.vars).contains v = true :=
        List.elem_iff.mpr hc
      rw [hc2] at hpv
      cases hpv
    · intro u hu hnu
      refine find?_sorted_min strLe hrefl (sortedStr (eng.freeSymbols equation)) _ v
        (sortLe_pairwise strLe htot htrans _) hp u
        ((mem_sortLe strLe _ u).mpr hu) ?_
      have hc2 : (List.map (fun v => v.name) input.context.vars).contains u = false := by
        rw [← Bool.not_eq_true]
        intro hc
        exact hnu (List.elem_iff.mp hc)
      show (!(List.map (fun v => v.name) input.context.vars).contains u) = true
      rw [hc2]
      rfl
  · intro v hsel hp
    rw [dropdownVarChoice, hsel, fallbackVarChoice]
    have hne : ¬ (eng.freeSymbols equation).isEmpty = true := by
      intro hempty
      rw [List.isEmpty_iff] at hempty
      rw [pickFallbackVar, hempty] at hp
      simp [sortedStr, sortLe] at hp
    rw [if_neg hne, hp]
  · intro sel hsel hne hcont
    rw [dropdownVarChoice, hsel]
    simp only []
    rw [if_neg (by simp [hne]), if_pos hcont]
  · intro expr hL hlhs hsel hfree hall
    have hpf : pickFallbackVar eng input expr = none := by
      rw [pickFallbackVar, List.find?_eq_none]
      intro x hx
      have hxf : x ∈ eng.freeSymbols expr := (mem_sortLe strLe _ x).mp hx
      have hc2 : (List.map (fun v => v.name) input.context.vars).contains x = true :=
        List.elem_iff.mpr (hall x hxf)
      show ¬ (!(List.map (fun v => v.name) input.context.vars).contains x) = true
      rw [hc2]
      simp
    have hdc : dropdownVarChoice eng input expr =
        .inr ⟨["All variables already defined in context"], input.context⟩ := by
      rw [dropdownVarChoice, hsel, fallbackVarChoice]
      rw [if_neg (show ¬ (eng.freeSymbols expr).isEmpty = true by
        simp [List.isEmpty_iff, hfree]), hpf]
    have hbody : solve_simple_body eng input =
        .ok ⟨["All variables already defined in context"], input.context⟩ := by
      rw [solve_simple_body, hL]
      simp only [hlhs, Bool.not_true, Bool.false_eq_true, if_false, hdc]
    rw [solve_simple, hbody]

/-- C5 witness: `x + y = 5` under `{x: [2]}` falls back to `y`; an explicit
"Solve for" selection of `x` overrides the fallback; `x = y` with both
variables in the context reports every variable already defined. -/
theorem solve_variable_choice_witness :
    dropdownVarChoice toyEngine c5aIn
      (TExpr.eqn (TExpr.add (TExpr.sym "x") (TExpr.sym "y")) (TExpr.num 5)) =
      .inl "y" ∧
    dropdownVarChoice toyEngine c5dIn
      (TExpr.eqn (TExpr.add (TExpr.sym "x") (TExpr.sym "y")) (TExpr.num 5)) =
      .inl "x" ∧
    solve_simple toyEngine c5cIn =
      ⟨["All variables already defined in context"], c5cIn.context⟩ :=
  ⟨(solve_variable_choice TExpr toyEngine c5aIn
      (TExpr.eqn (TExpr.add (TExpr.sym "x") (TExpr.sym "y")) (TExpr.num 5))).2.1
      "y" rfl rfl,
   (solve_variable_choice TExpr toyEngine c5dIn
      (TExpr.eqn (TExpr.add (TExpr.sym "x") (TExpr.sym "y")) (TExpr.num 5))).2.2.1
      "x" rfl (by decide) rfl,
   (solve_variable_choice TExpr toyEngine c5cIn
      (TExpr.eqn (TExpr.sym "x") (TExpr.sym "y"))).2.2.2
      (TExpr.eqn (TExpr.sym "x") (TExpr.sym "y")) rfl rfl rfl (by decide) (by decide)⟩

/-- C6 (amended): with substitutable variables present, `check_equal`
collects the per-tuple simplified sides of the equation over the whole
Cartesian product, sorts each side's result list by its rendered string, and
compares the two sorted lists element by element — a multiset comparison,
not a per-tuple AND (first conjunct ties the handler's output to that
comparison; the second gives the sort meaning: a permutation, sorted by the
string order).  In particular the specification's example `x = y` under
`{x: [1,2,3], y: [3,1,2]}` yields the single output `True` (third
conjunct) — without any special variable-to-variable shortcut in the code. -/
theorem equality_check_semantics : ∀ (E : Type) (eng : Engine E),
    (∀ (input : CellFunctionInput) (expr : E) (pairs : List (E × E)) (b : Bool),
      eng.fromLatex (pyStrip input.latex) = .ok expr →
      eng.isEquality expr = true →
      substitutableVars eng input.context expr ≠ [] →
      check_equal_pairs eng expr (substitutableVars eng input.context expr) = .ok pairs →
      compareSorted eng (sortByStr eng (pairs.map Prod.fst))
        (sortByStr eng (pairs.map Prod.snd)) = .ok b →
      check_equal eng input = ⟨[if b then "True" else "False"], input.context⟩) ∧
    (∀ l : List E, (sortByStr eng l).Perm l ∧
      (sortByStr eng l).Pairwise
        (fun a b => lexLe (eng.reprStr a).data (eng.reprStr b).data = true)) ∧
    check_equal toyEngine c6exIn = ⟨["True"], c6exIn.context⟩ := by
  intro E eng
  refine ⟨?_, ?_, by decide⟩
  · intro input expr pairs b hL hEq hcv hpairs hcmp
    have hbody : check_equal_visible eng input = .ok [if b then "True" else "False"] := by
      rw [check_equal_visible, hL]
      simp only [hEq, Bool.not_true, Bool.false_eq_true, if_false, if_neg hcv, hpairs]
      rw [hcmp]
    rw [check_equal, hbody]
  · intro l
    refine ⟨sortLe_perm _ l, sortLe_pairwise _ ?_ ?_ l⟩
    · intro a b
      exact lexLe_total (eng.reprStr a).data (eng.reprStr b).data
    · intro a b c
      exact lexLe_trans (eng.reprStr a).data (eng.reprStr b).data (eng.reprStr c).data

/-- C6 witness: the handler-output characterization instantiated at
`x = y + 0` under `{x: [1,2], y: [2,1]}`, whose sorted side-lists agree. -/
theorem equality_check_semantics_witness :
    check_equal toyEngine c6cIn =
      ⟨[if true then "True" else "False"], c6cIn.context⟩ :=
  (equality_check_semantics TExpr toyEngine).1 c6cIn
    (TExpr.eqn (TExpr.sym "x") (TExpr.add (TExpr.sym "y") (TExpr.num 0)))
    [(TExpr.num 1, TExpr.num 2), (TExpr.num 1, TExpr.num 1),
     (TExpr.num 2, TExpr.num 2), (TExpr.num 2, TExpr.num 1)] true
    rfl rfl (by decide) rfl rfl

/-- C6 counterexample: for `x = y + 0` under `{x: [1,2], y: [2,1]}` the
enumerated tuple `(x:=1, y:=2)` (second conjunct: it is in the Cartesian
product) produces sides `1` and `2`, whose difference is non-zero (fourth
conjunct) — so a logical-AND reduction across tuples would answer `False` —
yet the handler outputs `True`, because it compares the two side-lists only
after sorting them. -/
theorem equality_not_per_tuple_and :
    check_equal toyEngine c6cIn = ⟨["True"], c6cIn.context⟩ ∧
    ["1", "2"] ∈ product [["1", "2"], ["2", "1"]] ∧
    perComboSides toyEngine
      (TExpr.eqn (TExpr.sym "x") (TExpr.add (TExpr.sym "y") (TExpr.num 0)))
      ["x", "y"] ["1", "2"] = .ok (TExpr.num 1, TExpr.num 2) ∧
    toyEngine.diffIsZero (TExpr.num 1) (TExpr.num 2) = .ok false :=
  ⟨by decide, by decide, rfl, rfl⟩

/-- C7 (code bug): a failed construct aborts the whole rewrite pass.  In
`∫_{0}(x) dx + ∫_{0}^{2}(x^2) dx` the first construct has no upper bound
(no `^` follows `_{0}`), so the source's "No upper bound found, skip this
integral" path runs the marker rewrite — which splices `__SKIP_INTEGRAL__`
over `\int_` and substitutes it straight back, reconstructing the very same
string — and then `break`s: the markup comes back completely untouched.
The first conjunct holds for every engine, since this failure occurs before
any engine call.  Yet the second construct, on its own, is resolvable and
rewrites to `2.66666666666667` (second conjunct) — the skip-and-continue
policy the specification mandates would have rewritten it. -/
theorem scanner_aborts_on_failure :
    (∀ (E : Type) (eng : Engine E),
      evaluate_integrals eng 4 c7In =
        some ⟨"\\int_{0}(x) dx + \\int_{0}^{2}(x^2) dx"⟩) ∧
    evaluate_integrals toyEngine 4 c7TailIn = some ⟨"2.66666666666667"⟩ :=
  ⟨fun _ _ => rfl, by decide⟩

/-- C8 (amended): when the brace counter returns to zero the extracted bound
(the scanned span less the final closing brace) has equal open- and
close-brace counts; and although the source's `while True:` loop has no
iteration cap, it terminates on every input — with fuel exceeding the
text's backslash count — provided the engine's renderings are
backslash-free, since every non-breaking iteration consumes the matched
`\int` marker's backslash.  (On unbalanced input the counter never returns
to zero and the extracted span can be unbalanced: see the
counterexample.) -/
theorem scanner_balance_and_termination : ∀ (s : List Char) (pos p : Nat)
    (E : Type) (eng : Engine E) (ctx : Context) (fuel : Nat) (t : List Char),
    braceScanC s pos 1 = (p, 0) →
    (∀ r : E, (eng.reprStr r).data.count '\\' = 0) →
    t.count '\\' < fuel →
    (pySlice s pos (p - 1)).count '{' = (pySlice s pos (p - 1)).count '}' ∧
    (integLoop eng ctx fuel t).isSome = true := by
  intro s pos p E eng ctx fuel t hb hnoBS hfuel
  refine ⟨?_, integLoop_terminates eng ctx hnoBS fuel t hfuel⟩
  have hspec := braceScanC_spec s pos 1
  rw [hb] at hspec
  obtain ⟨hge, hbal⟩ := hspec
  have hge2 : pos ≤ p := hge
  have hbal2 : 0 + (pySlice s pos p).count '}' = 1 + (pySlice s pos p).count '{' := hbal
  obtain ⟨hlt, hlast⟩ := braceScanC_zero_last s pos 1 p (by omega) hb
  rw [pySlice_snoc s pos p '}' hlast (by omega)] at hbal2
  rw [List.count_append, List.count_append] at hbal2
  have h1 : (['}'] : List Char).count '}' = 1 := by decide
  have h2 : (['}'] : List Char).count '{' = 0 := by decide
  rw [h1, h2] at hbal2
  omega

/-- C8 witness: a balanced scan (`a}` from inside the brace) extracts a
balanced span, and the loop finishes on a marker-free text within one
iteration. -/
theorem scanner_balance_and_termination_witness :
    (pySlice "a\x7d".data 0 1).count '{' = (pySlice "a\x7d".data 0 1).count '}' ∧
    (integLoop nullEngine ⟨[]⟩ 1 "ab".data).isSome = true :=
  scanner_balance_and_termination "a\x7d".data 0 2 Unit nullEngine ⟨[]⟩ 1 "ab".data
    (by decide) (fun _ => rfl) (by decide)

/-- C8 counterexample: on the unbalanced bound `{a{b` the scan runs off the
end of the text with the counter still positive, and the extracted bound
text `a{` has one opening brace and no closing brace — the open/close
counts of the extracted span are NOT equal on every input. -/
theorem brace_extraction_unbalanced :
    (parseBound "\x7ba\x7bb".data 0).fst.count '{' ≠
      (parseBound "\x7ba\x7bb".data 0).fst.count '}' := by
  decide

/-- C9 counterexample: on the specification's own example
`∫_{0}^{2}(x^2) dx` with an empty context, the full span is rewritten not
with the exact `8/3` but with `str(N(8/3)) = 2.66666666666667`. -/
theorem integral_not_exact :
    evaluate_integrals toyEngine 2 c9In = some ⟨"2.66666666666667"⟩ ∧
    "2.66666666666667" ≠ "8/3" ∧ "2.66666666666667" ≠ "\\frac{8}{3}" :=
  ⟨by decide, by decide, by decide⟩

/-- C9 (amended): for `∫_{0}^{2}(x^2) dx` under an empty context the scanner
resolves the literal bounds `0` and `2`, the engine integrates `x^2` to the
exact `8/3` (second conjunct), and the full matched span — from the `\int`
marker through the trailing `dx` — is replaced by the NUMERICAL rendering
`str(N(8/3)) = 2.66666666666667` (third conjunct), which is the whole
rewritten markup (first conjunct). -/
theorem integral_example_numeric :
    evaluate_integrals toyEngine 2 c9In = some ⟨"2.66666666666667"⟩ ∧
    tIntegrate (TExpr.pow (TExpr.sym "x") 2) "x" (TExpr.num 0) (TExpr.num 2) =
      .ok (TExpr.rat 8 3) ∧
    treprStr (tNumApprox (TExpr.rat 8 3)) = "2.66666666666667" :=
  ⟨by decide, rfl, by decide⟩

/-- Membership phrasing of the handlers' context-name lookups. -/
theorem contains_names_iff (input : CellFunctionInput) (v : String) :
    (List.map (fun v => v.name) input.context.vars).contains v = true ↔
    v ∈ input.context.vars.map Variable.name :=
  List.elem_iff

/-- The probes' unsolved-variable filter is non-empty exactly when some free
symbol is absent from the context. -/
theorem unsolved_filter_nonempty {E : Type} (eng : Engine E)
    (input : CellFunctionInput) (ex : E) :
    (¬ ((sortedStr (eng.freeSymbols ex)).filter
      (fun v => !((input.context.vars.map (fun v => v.name)).contains v))).isEmpty = true) ↔
    ∃ v ∈ eng.freeSymbols ex, ¬ v ∈ input.context.vars.map Variable.name := by
  rw [List.isEmpty_iff]
  constructor
  · intro hne
    obtain ⟨v, hv⟩ := List.exists_mem_of_ne_nil _ hne
    obtain ⟨hv1, hv2⟩ := List.mem_filter.mp hv
    refine ⟨v, (mem_sortLe strLe _ v).mp hv1, fun hc => ?_⟩
    have hcv : (List.map (fun v => v.name) input.context.vars).contains v = true :=
      (contains_names_iff input v).mpr hc
    rw [hcv] at hv2
    cases hv2
  · rintro ⟨v, hvf, hvn⟩ hnil
    have hcv : (List.map (fun v => v.name) input.context.vars).contains v = false := by
      rw [← Bool.not_eq_true]
      intro hc
      exact hvn ((contains_names_iff input v).mp hc)
    have hmem : v ∈ (sortedStr (eng.freeSymbols ex)).filter
        (fun v => !((input.context.vars.map (fun v => v.name)).contains v)) :=
      List.mem_filter.mpr ⟨(mem_sortLe strLe _ v).mpr hvf, by rw [hcv]; rfl⟩
    rw [hnil] at hmem
    cases hmem

/-- Under a successful parse, the probes' applicability condition reduces to
a predicate on the parsed expression. -/
theorem parse_ok_elim {E : Type} (lx : String) (ex : E) (P : E → Prop)
    (h0 : lx ≠ "") :
    (lx ≠ "" ∧ ∃ e, (Except.ok ex : Except String E) = .ok e ∧ P e) ↔ P ex := by
  constructor
  · rintro ⟨-, e, he, hp⟩
    simp only [Except.ok.injEq] at he
    rw [he]
    exact hp
  · intro hp
    exact ⟨h0, ex, rfl, hp⟩

/-- Under a failed parse, the probes' applicability condition is false. -/
theorem parse_error_elim {E : Type} (m : String) (lx : String) (P : E → Prop) :
    ¬ (lx ≠ "" ∧ ∃ e, (Except.error m : Except String E) = .ok e ∧ P e) := by
  rintro ⟨-, e, he, -⟩
  cases he

/-- C4: each probe returns its result by value (the embeddings are total
functions) and answers applicable exactly when all of its checks pass —
equivalently, every internal failure (empty markup, parse failure, wrong
expression shape, unmet variable-coverage condition) yields
`use_result = false`. -/
theorem probe_applicability : ∀ (E : Type) (eng : Engine E)
    (input : CellFunctionInput) (pin : ProcMacroInput),
    ((meta_solve_simple eng input).use_result = true ↔
      pyStrip input.latex ≠ "" ∧ ∃ ex, eng.fromLatex (pyStrip input.latex) = .ok ex ∧
        eng.isEquality ex = true ∧ eng.freeSymbols ex ≠ [] ∧
        ∃ v ∈ eng.freeSymbols ex, ¬ v ∈ input.context.vars.map Variable.name) ∧
    ((meta_check_equal eng input).use_result = true ↔
      pyStrip input.latex ≠ "" ∧ ∃ ex, eng.fromLatex (pyStrip input.latex) = .ok ex ∧
        eng.isEquality ex = true ∧
        ∀ v ∈ eng.freeSymbols ex, v ∈ input.context.vars.map Variable.name) ∧
    ((meta_simple_simplify eng input).use_result = true ↔
      pyStrip input.latex ≠ "" ∧ ∃ ex, eng.fromLatex (pyStrip input.latex) = .ok ex ∧
        eng.isEquality ex = false ∧ (pyStrip input.latex).data.contains '=' = false) ∧
    ((meta_solve_ode eng input).use_result = true ↔
      pyStrip input.latex ≠ "" ∧ ∃ ex, eng.fromLatex (pyStrip input.latex) = .ok ex ∧
        eng.isEquality ex = true ∧ eng.atomsDerivative ex ≠ []) ∧
    ((meta_evaluate_integrals eng pin).use_result = true ↔
      (findIntMarker pin.latex.data).isSome = true) := by
  intro E eng input pin
  refine ⟨?_, ?_, ?_, ?_, Iff.rfl⟩
  · by_cases h0 : pyStrip input.latex = ""
    · rw [meta_solve_simple, meta_solve_simple_body, if_pos h0]
      simp [metaNo, h0]
    · cases hL : eng.fromLatex (pyStrip input.latex) with
      | error e =>
        rw [meta_solve_simple, meta_solve_simple_body, if_neg h0, hL]
        simp only [metaNo, Bool.false_eq_true, false_iff]
        exact parse_error_elim e _ _
      | ok ex =>
        rw [meta_solve_simple, meta_solve_simple_body, if_neg h0, hL]
        simp only []
        rw [parse_ok_elim _ ex _ h0]
        by_cases hEq : eng.isEquality ex
        · rw [if_neg (by simp [hEq])]
          by_cases hFr : (eng.freeSymbols ex).isEmpty
          · rw [if_pos hFr]
            simp only [metaNo, Bool.false_eq_true, false_iff]
            rintro ⟨-, hne, -⟩
            exact hne (List.isEmpty_iff.mp hFr)
          · rw [if_neg hFr]
            by_cases hUn : ((sortedStr (eng.freeSymbols ex)).filter
                (fun v => !((input.context.vars.map (fun v => v.name)).contains v))).isEmpty
            · rw [if_pos hUn]
              simp only [metaNo, Bool.false_eq_true, false_iff]
              rintro ⟨-, -, hex⟩
              exact ((unsolved_filter_nonempty eng input ex).mpr hex) hUn
            · rw [if_neg hUn]
              simp only [true_iff]
              exact ⟨hEq, fun hnil => hFr (by simp [hnil]),
                (unsolved_filter_nonempty eng input ex).mp hUn⟩
        · rw [if_pos (by simp [hEq])]
          simp only [metaNo, Bool.false_eq_true, false_iff]
          rintro ⟨heq, -⟩
          exact hEq heq
  · by_cases h0 : pyStrip input.latex = ""
    · rw [meta_check_equal, meta_check_equal_body, if_pos h0]
      simp [metaNo, h0]
    · cases hL : eng.fromLatex (pyStrip input.latex) with
      | error e =>
        rw [meta_check_equal, meta_check_equal_body, if_neg h0, hL]
        simp only [metaNo, Bool.false_eq_true, false_iff]
        exact parse_error_elim e _ _
      | ok ex =>
        rw [meta_check_equal, meta_check_equal_body, if_neg h0, hL]
        simp only []
        rw [parse_ok_elim _ ex _ h0]
        by_cases hEq : eng.isEquality ex
        · rw [if_neg (by simp [hEq])]
          by_cases hAll : (eng.freeSymbols ex).all
              (fun s => (input.context.vars.map (fun v => v.name)).contains s)
          · rw [if_pos hAll]
            simp only [true_iff]
            refine ⟨hEq, fun v hv => ?_⟩
            have := List.all_eq_true.mp hAll v hv
            exact (contains_names_iff input v).mp this
          · rw [if_neg hAll]
            simp only [metaNo, Bool.false_eq_true, false_iff]
            rintro ⟨-, hcov⟩
            refine hAll (List.all_eq_true.mpr fun v hv => ?_)
            exact (contains_names_iff input v).mpr (hcov v hv)
        · rw [if_pos (by simp [hEq])]
          simp only [metaNo, Bool.false_eq_true, false_iff]
          rintro ⟨heq, -⟩
          exact hEq heq
  · by_cases h0 : pyStrip input.latex = ""
    · rw [meta_simple_simplify, meta_simple_simplify_body, if_pos h0]
      simp [metaNo, h0]
    · cases hL : eng.fromLatex (pyStrip input.latex) with
      | error e =>
        rw [meta_simple_simplify, meta_simple_simplify_body, if_neg h0, hL]
        simp only [metaNo, Bool.false_eq_true, false_iff]
        exact parse_error_elim e _ _
      | ok ex =>
        rw [meta_simple_simplify, meta_simple_simplify_body, if_neg h0, hL]
        simp only []
        rw [parse_ok_elim _ ex _ h0]
        by_cases hEq : eng.isEquality ex
        · rw [if_pos hEq]
          simp only [metaNo, Bool.false_eq_true, false_iff]
          rintro ⟨heq, -⟩
          rw [hEq] at heq
          cases heq
        · rw [if_neg hEq]
          by_cases hC : (pyStrip input.latex).data.contains '='
          · rw [if_pos hC]
            simp only [metaNo, Bool.false_eq_true, false_iff]
            rintro ⟨-, hc⟩
            rw [hC] at hc
            cases hc
          · rw [if_neg hC]
            simp only [true_iff]
            exact ⟨Bool.not_eq_true _ ▸ (by simpa using hEq),
              Bool.not_eq_true _ ▸ (by simpa using hC)⟩
  · by_cases h0 : pyStrip input.latex = ""
    · rw [meta_solve_ode, meta_solve_ode_body, if_pos h0]
      simp [metaNo, h0]
    · cases hL : eng.fromLatex (pyStrip input.latex) with
      | error e =>
        rw [meta_solve_ode, meta_solve_ode_body, if_neg h0, hL]
        simp only [metaNo, Bool.false_eq_true, false_iff]
        exact parse_error_elim e _ _
      | ok ex =>
        rw [meta_solve_ode, meta_solve_ode_body, if_neg h0, hL]
        simp only []
        rw [parse_ok_elim _ ex _ h0]
        by_cases hEq : eng.isEquality ex
        · rw [if_neg (by simp [hEq])]
          by_cases hD : (eng.atomsDerivative ex).isEmpty
          · rw [if_pos hD]
            simp only [metaNo, Bool.false_eq_true, false_iff]
            rintro ⟨-, hne⟩
            exact hne (List.isEmpty_iff.mp hD)
          · rw [if_neg hD]
            simp only [true_iff]
            exact ⟨hEq, fun hnil => hD (by simp [hnil])⟩
        · rw [if_pos (by simp [hEq])]
          simp only [metaNo, Bool.false_eq_true, false_iff]
          rintro ⟨heq, -⟩
          exact hEq heq
